import Mathlib

/-!
# Verification of the recipe retrieval and ranking engine

Shallow embedding of `src/tools/retrieval.py` and `src/tools/vector_store.py`
(the retrieval/ranking core of the repository), together with proofs of the
behavioural properties stated in the specification.

Modelling conventions:
* Python strings are modelled as `List Char` (`Str`); `str.lower()` is ASCII
  lowering via `Char.toLower`, matching the ASCII-only regexes in the source.
* Python floats (similarity scores, match ratios, the 0.999 / 0.5 thresholds)
  are modelled as exact rationals `ℚ`.
* `list.sort(key=..., reverse=True)` is Python's stable sort; it is modelled by
  `List.insertionSort` with the reflexive descending key order, which is also
  stable, and a stable sort for a fixed total preorder is unique.
* The FAISS index is abstracted by its row count plus the search function
  `search_k ↦ list of (score, position)` pairs, exactly the data
  `index.search` yields to `search_recipes`.
-/

/-- Python strings, as lists of characters. -/
abbrev Str := List Char

/-- Membership of `c` in the regex class `[a-z0-9]` (the classes used by
`_normalize_text` and the tokenizing regexes operate on lowered text). -/
def isAlnumLower (c : Char) : Bool :=
  (Char.ofNat 97 ≤ c && c ≤ Char.ofNat 122) || (Char.ofNat 48 ≤ c && c ≤ Char.ofNat 57)

/-- Membership in the token regex class `[a-z0-9']` used by
`re.findall(r"[a-z0-9']+", ...)` in `_extract_required_terms` and
`search_recipes` (character 39 is the apostrophe). -/
def isTokChar (c : Char) : Bool :=
  isAlnumLower c || c.toNat == 39

/-- `str.lower()` on ASCII text. -/
def lowerStr (s : Str) : Str := s.map Char.toLower

/-- Helper for `findRuns`: `acc` holds the (reversed) run of `p`-characters
currently being read. -/
def findRunsAux (p : Char → Bool) : List Char → List Char → List (List Char)
  | acc, [] => if acc.isEmpty then [] else [acc.reverse]
  | acc, c :: cs =>
    if p c then findRunsAux p (c :: acc) cs
    else if acc.isEmpty then findRunsAux p [] cs
    else acc.reverse :: findRunsAux p [] cs

/-- `re.findall(pat+, s)`: the list of maximal runs of characters satisfying
`p`, in order. -/
def findRuns (p : Char → Bool) (s : List Char) : List (List Char) :=
  findRunsAux p [] s

/-- Helper for `replaceRuns`: `inRun` records whether the previous character
belonged to a `p`-run (whose replacement has already been emitted). -/
def replaceRunsAux (p : Char → Bool) (r : Char) : Bool → List Char → List Char
  | _, [] => []
  | inRun, c :: cs =>
    if p c then
      if inRun then replaceRunsAux p r true cs
      else r :: replaceRunsAux p r true cs
    else c :: replaceRunsAux p r false cs

/-- `re.sub(pat+, r, s)` for a character-class pattern `p`: every maximal run
of characters satisfying `p` is replaced by the single character `r`. -/
def replaceRuns (p : Char → Bool) (r : Char) (s : List Char) : List Char :=
  replaceRunsAux p r false s

/-- `str.strip()` restricted to spaces (after `_normalize_text`'s
substitutions the only whitespace left is the space character). -/
def stripSpaces (s : Str) : Str :=
  ((s.dropWhile (· == ' ')).reverse.dropWhile (· == ' ')).reverse

/-- Embeds `_normalize_text` (src/tools/retrieval.py): lower-case, replace
runs of non-`[a-z0-9]` characters by single spaces, collapse whitespace runs,
strip. -/
def normalizeText (text : Str) : Str :=
  stripSpaces (replaceRuns (fun c => !isAlnumLower c) ' ' (lowerStr text))

/-- The module-level `_STOP_WORDS` set of src/tools/retrieval.py. -/
def STOP_WORDS : List Str :=
  ["a", "an", "and", "any", "are", "best", "bright", "by", "cozy", "day",
   "delicious", "dinner", "dish", "dishes", "easy", "for", "from", "guide",
   "ideas", "in", "incredible", "keeper", "list", "make", "meal", "must",
   "of", "on", "our", "perfect", "recipes", "simple", "that", "the",
   "their", "these", "this", "those", "to", "ultimate", "way", "week",
   "weekday", "weekend", "with"].map String.toList

/-- The module-level `_SPECIAL_PHRASES` tuple of src/tools/retrieval.py. -/
def SPECIAL_PHRASES : List Str :=
  ["air fryer", "instant pot", "pressure cooker", "slow cooker", "sheet pan",
   "one pan", "one-pot", "one pot", "meal prep", "no-bake", "no bake",
   "gluten-free", "gluten free", "dairy-free", "dairy free", "vegan",
   "vegetarian", "keto", "paleo", "low-carb", "low carb", "high-protein",
   "high protein", "sugar-free", "sugar free", "kid-friendly",
   "kid friendly", "date night"].map String.toList

/-- Python substring containment `needle in haystack`. -/
def containsSub (needle : Str) : Str → Bool
  | [] => needle.isEmpty
  | c :: rest => needle.isPrefixOf (c :: rest) || containsSub needle rest

/-- `phrase.split()`: split on whitespace runs (the phrase constants only
contain spaces). -/
def splitWords (s : Str) : List Str := findRuns (fun c => !(c == ' ')) s

/-- Python `token.isdigit()` for tokens drawn from `[a-z0-9']+` runs:
non-empty and all characters decimal digits. -/
def isDigits (t : Str) : Bool := !t.isEmpty && t.all Char.isDigit

/-- Embeds `_extract_required_terms` (src/tools/retrieval.py): collect the
special phrases contained in the lowered query (reserving their constituent
words), then append every token of the lowered query that is not purely
numeric, not a stop word and not reserved. -/
def extractRequiredTerms (query : Str) : List Str :=
  let queryLower := lowerStr query
  let phraseScan := SPECIAL_PHRASES.foldl
    (fun (acc : List Str × List Str) phrase =>
      if containsSub phrase queryLower then
        (acc.1 ++ [phrase], acc.2 ++ splitWords phrase)
      else acc)
    ([], [])
  let requiredPhrases := phraseScan.1
  let reservedTokens := phraseScan.2
  let tokens := findRuns isTokChar queryLower
  requiredPhrases ++ tokens.foldl
    (fun acc token =>
      if isDigits token then acc
      else if STOP_WORDS.contains token then acc
      else if reservedTokens.contains token then acc
      else acc ++ [token])
    []

/-- A record as read by the retrieval engine: the fields `_recipe_text`
concatenates plus the `category`/`tags` fields the metadata filters read.
`ingredients` and `tags` carry list values, the rest scalar strings
(any absent field is the empty value, which Python's falsiness test skips). -/
structure Recipe where
  title : Str
  description : Str
  category : Str
  cuisine : Str
  notes : Str
  summary : Str
  ingredients : List Str
  instructions : Str
  tags : List Str
deriving DecidableEq, Repr

/-- `" ".join(str(item) for item in value)` for a list-valued field. -/
def joinSpaces : List Str → Str
  | [] => []
  | [s] => s
  | s :: rest => s ++ ' ' :: joinSpaces rest

/-- A scalar part of `_recipe_text`: skipped when falsy (empty). -/
def scalarPart (s : Str) : List Str := if s.isEmpty then [] else [s]

/-- A list-valued part of `_recipe_text`: skipped when falsy (empty list),
otherwise space-joined. -/
def listPart (l : List Str) : List Str := if l.isEmpty then [] else [joinSpaces l]

/-- Embeds `_recipe_text` (src/tools/retrieval.py): concatenate the truthy
text-bearing fields, space-separated, in the source's field order. -/
def recipeText (r : Recipe) : Str :=
  joinSpaces
    (scalarPart r.title ++ scalarPart r.description ++ scalarPart r.category ++
     scalarPart r.cuisine ++ scalarPart r.notes ++ scalarPart r.summary ++
     listPart r.ingredients ++ scalarPart r.instructions ++ listPart r.tags)

/-- The per-term test of `_count_term_matches`: a multi-word term is tested by
substring containment in the normalized text, a single token by membership in
the token set. -/
def termMatches (term : Str) (normalizedText : Str) (tokens : List Str) : Bool :=
  if term.contains ' ' then containsSub term normalizedText
  else tokens.contains term

/-- Embeds `_count_term_matches` (src/tools/retrieval.py). -/
def countTermMatches (requiredTerms : List Str) (normalizedText : Str)
    (tokens : List Str) : Nat :=
  requiredTerms.foldl
    (fun matchCount term =>
      if termMatches term normalizedText tokens then matchCount + 1
      else matchCount)
    0

/-- `TOP_K` from src/config.py. -/
def TOP_K : Int := 10

/-- The strict-match threshold `0.999` of `search_recipes` (`mkRat` is exact
rational construction, `999 / 1000`). -/
def strictThreshold : ℚ := mkRat 999 1000

/-- The partial-match acceptance floor `0.5` of `search_recipes`. -/
def ratioFloor : ℚ := mkRat 1 2

/-- The per-search candidate record built by `search_recipes`. -/
structure Candidate where
  recipe : Recipe
  score : ℚ
  matchCount : Nat
  matchRatio : ℚ
deriving DecidableEq, Repr

/-- The FAISS index as `search_recipes` uses it: a row count and the search
call, returning for a requested `search_k` the `zip(scores[0], indices[0])`
list of (similarity score, position) pairs. -/
structure FaissIndex where
  rowCount : Nat
  searchFn : Int → List (ℚ × Int)

/-- Embeds `load_faiss_index` (src/tools/vector_store.py): `faiss.read_index`
either yields the stored index (`some`) or throws, in which case the function
returns `None`.  It performs no consistency check of the index against any
identifier list. -/
def loadFaissIndex (stored : Option FaissIndex) : Option FaissIndex := stored

/-- Python slicing `l[:k]` for an `int` k, including the negative case. -/
def pyTake {α : Type} (k : Int) (l : List α) : List α :=
  if 0 ≤ k then l.take k.toNat else l.take ((l.length : Int) + k).toNat

/-- Python indexing `l[i]` for an `int` i: negative indices address from the
end; out-of-range access has no value (an `IndexError` in Python). -/
def pyListGet {α : Type} (l : List α) (i : Int) : Option α :=
  if 0 ≤ i then l.get? i.toNat
  else if (0:Int) ≤ (l.length : Int) + i then l.get? ((l.length : Int) + i).toNat
  else none

/-- The category-filter rejection test of `search_recipes`:
`category and recipe.get("category", "").lower() != category.lower()`. -/
def categorySkip (category : Option Str) (r : Recipe) : Bool :=
  match category with
  | none => false
  | some c => !c.isEmpty && !(lowerStr r.category == lowerStr c)

/-- The tag-filter rejection test of `search_recipes`: with a truthy `tags`
argument, reject unless some supplied tag occurs (lowered) among the record's
lowered tags. -/
def tagsSkip (tags : List Str) (r : Recipe) : Bool :=
  !tags.isEmpty && !(tags.any (fun t => (r.tags.map lowerStr).contains (lowerStr t)))

/-- The token list `re.findall(r"[a-z0-9']+", normalized_text)` computed per
candidate in `search_recipes`. -/
def recipeTokens (r : Recipe) : List Str :=
  findRuns isTokChar (normalizeText (recipeText r))

/-- The `match_count` a candidate receives in `search_recipes`. -/
def recipeMatchCount (requiredTerms : List Str) (r : Recipe) : Nat :=
  if requiredTerms.isEmpty then 0
  else countTermMatches requiredTerms (normalizeText (recipeText r)) (recipeTokens r)

/-- The `match_ratio` a candidate receives in `search_recipes`:
`match_count / len(required_terms)`, or `1.0` when there are no required
terms. -/
def recipeMatchRatio (requiredTerms : List Str) (r : Recipe) : ℚ :=
  if requiredTerms.isEmpty then 1
  else mkRat (recipeMatchCount requiredTerms r) requiredTerms.length

/-- The candidate dictionary appended by `search_recipes`. -/
def mkCandidate (requiredTerms : List Str) (r : Recipe) (score : ℚ) : Candidate :=
  { recipe := r
    score := score
    matchCount := recipeMatchCount requiredTerms r
    matchRatio := recipeMatchRatio requiredTerms r }

/-- The candidate-collection loop of `search_recipes`: walk the
`zip(scores[0], indices[0])` hits, skip the `-1` sentinel and out-of-range
positions, translate the position to a record identifier through
`recipe_ids = list(id_to_recipe.keys())`, de-duplicate on identifiers via
`seen_recipe_ids`, apply the metadata filters, and score the record.  Each
produced candidate is paired with the identifier that produced it (the
source keeps that identifier in `seen_recipe_ids`). -/
def collectCandidates (requiredTerms : List Str) (idToRecipe : List (String × Recipe))
    (category : Option Str) (tags : List Str) :
    List (ℚ × Int) → List String → List (String × Candidate)
  | [], _ => []
  | (score, idx) :: rest, seen =>
    if idx = -1 ∨ ((idToRecipe.map Prod.fst).length : Int) ≤ idx then
      collectCandidates requiredTerms idToRecipe category tags rest seen
    else
      match pyListGet (idToRecipe.map Prod.fst) idx with
      | none =>
        -- Python would raise IndexError here (position below -len); FAISS only
        -- ever emits -1 or in-range row numbers, so this branch is unreachable.
        collectCandidates requiredTerms idToRecipe category tags rest seen
      | some recipeId =>
        if seen.contains recipeId then
          collectCandidates requiredTerms idToRecipe category tags rest seen
        else
          match idToRecipe.lookup recipeId with
          | none =>
            -- unreachable: recipeId was drawn from the keys of id_to_recipe
            collectCandidates requiredTerms idToRecipe category tags rest seen
          | some recipe =>
            if categorySkip category recipe then
              collectCandidates requiredTerms idToRecipe category tags rest seen
            else if tagsSkip tags recipe then
              collectCandidates requiredTerms idToRecipe category tags rest seen
            else
              (recipeId, mkCandidate requiredTerms recipe score) ::
                collectCandidates requiredTerms idToRecipe category tags rest
                  (recipeId :: seen)

/-- The sort order of `candidates.sort(key=(match_ratio, match_count, score),
reverse=True)`: `a` precedes (or ties) `b` when `a`'s key is lexicographically
at least `b`'s. -/
def candLE (a b : Candidate) : Prop :=
  b.matchRatio < a.matchRatio ∨
    (b.matchRatio = a.matchRatio ∧
      (b.matchCount < a.matchCount ∨
        (b.matchCount = a.matchCount ∧ b.score ≤ a.score)))

instance : DecidableRel candLE := fun a b => by
  unfold candLE; infer_instance

instance : IsTotal Candidate candLE where
  total a b := by
    unfold candLE
    rcases lt_trichotomy b.matchRatio a.matchRatio with h | h | h
    · exact Or.inl (Or.inl h)
    · rcases lt_trichotomy b.matchCount a.matchCount with h2 | h2 | h2
      · exact Or.inl (Or.inr ⟨h, Or.inl h2⟩)
      · rcases le_total b.score a.score with h3 | h3
        · exact Or.inl (Or.inr ⟨h, Or.inr ⟨h2, h3⟩⟩)
        · exact Or.inr (Or.inr ⟨h.symm, Or.inr ⟨h2.symm, h3⟩⟩)
      · exact Or.inr (Or.inr ⟨h.symm, Or.inl h2⟩)
    · exact Or.inr (Or.inl h)

instance : IsTrans Candidate candLE where
  trans a b c hab hbc := by
    unfold candLE at *
    rcases hab with h1 | ⟨e1, h1⟩ <;> rcases hbc with h2 | ⟨e2, h2⟩
    · exact Or.inl (h2.trans h1)
    · exact Or.inl (e2 ▸ h1)
    · exact Or.inl (e1 ▸ h2)
    · refine Or.inr ⟨e2.trans e1, ?_⟩
      rcases h1 with h1 | ⟨f1, h1⟩ <;> rcases h2 with h2 | ⟨f2, h2⟩
      · exact Or.inl (h2.trans h1)
      · exact Or.inl (f2 ▸ h1)
      · exact Or.inl (f1 ▸ h2)
      · exact Or.inr ⟨f2.trans f1, h2.trans h1⟩

/-- The strong-partial-match fill loop of `search_recipes` (second stage):
append partial candidates in order, skipping (when required terms exist) those
with `match_ratio < 0.5`, until `k` results are reached. -/
def fillPartial (k : Int) (requiredTerms : List Str) :
    List Candidate → List Recipe → List Recipe
  | [], results => results
  | c :: cs, results =>
    if k ≤ (results.length : Int) then results
    else if !requiredTerms.isEmpty && decide (c.matchRatio < ratioFloor) then
      fillPartial k requiredTerms cs results
    else
      fillPartial k requiredTerms cs (results ++ [c.recipe])

/-- The any-remaining-candidate fill loop of `search_recipes` (third stage):
append candidates in sorted order, skipping recipes already present in the
results, until `k` results are reached. -/
def fillAny (k : Int) : List Candidate → List Recipe → List Recipe
  | [], results => results
  | c :: cs, results =>
    if k ≤ (results.length : Int) then results
    else if results.contains c.recipe then
      fillAny k cs results
    else
      fillAny k cs (results ++ [c.recipe])

/-- The ranking tail of `search_recipes`: the in-place
`candidates.sort(..., reverse=True)` (Python's stable sort, modelled by the
stable `insertionSort` under the descending key order), the strict/partial
partition, the three fill stages and the final `results[:k]`. -/
def rankCandidates (requiredTerms : List Str) (k : Int)
    (candidates : List Candidate) : List Recipe :=
  let sorted := List.insertionSort candLE candidates
  let strictMatches := sorted.filter (fun c => decide (strictThreshold ≤ c.matchRatio))
  let partialMatches := sorted.filter (fun c => decide (c.matchRatio < strictThreshold))
  let results1 := (pyTake k strictMatches).map Candidate.recipe
  let results2 :=
    if (results1.length : Int) < k then
      fillPartial k requiredTerms partialMatches results1
    else results1
  let results3 :=
    if (results2.length : Int) < k then fillAny k sorted results2 else results2
  pyTake k results3

/-- The identifier-annotated candidate list a `search_recipes` call collects:
`search_k = max(k * 6, TOP_K)` positions are requested from the index and fed
through the collection loop. -/
def searchCandidatesT (query : Str) (index : FaissIndex)
    (idToRecipe : List (String × Recipe)) (category : Option Str)
    (tags : List Str) (k : Int) : List (String × Candidate) :=
  collectCandidates (extractRequiredTerms query) idToRecipe category tags
    (index.searchFn (max (k * 6) TOP_K)) []

/-- The candidate list (`candidates` in the source) a `search_recipes` call
aggregates. -/
def searchCandidates (query : Str) (index : FaissIndex)
    (idToRecipe : List (String × Recipe)) (category : Option Str)
    (tags : List Str) (k : Int) : List Candidate :=
  (searchCandidatesT query index idToRecipe category tags k).map Prod.snd

/-- Embeds `search_recipes` (src/tools/retrieval.py).  The query embedding is
only passed to `index.search`, so the index is modelled directly as the
function from the requested `search_k` to the scored positions it returns. -/
def searchRecipes (query : Str) (index : FaissIndex)
    (idToRecipe : List (String × Recipe)) (category : Option Str)
    (tags : List Str) (k : Int) : List Recipe :=
  let candidates := searchCandidates query index idToRecipe category tags k
  if candidates.isEmpty then []
  else rankCandidates (extractRequiredTerms query) k candidates

/-- `candLE` lifted to identifier-annotated candidates. -/
def annLE (p q : String × Candidate) : Prop := candLE p.2 q.2

instance : DecidableRel annLE := fun p q => by
  unfold annLE; infer_instance

instance : IsTotal (String × Candidate) annLE where
  total p q := IsTotal.total (r := candLE) p.2 q.2

instance : IsTrans (String × Candidate) annLE where
  trans p q s hpq hqs := IsTrans.trans (r := candLE) p.2 q.2 s.2 hpq hqs

/-- Second fill stage run on identifier-annotated candidates; the decisions
are exactly those of `fillPartial`. -/
def fillPartialT (k : Int) (requiredTerms : List Str) :
    List (String × Candidate) → List (String × Recipe) → List (String × Recipe)
  | [], results => results
  | c :: cs, results =>
    if k ≤ (results.length : Int) then results
    else if !requiredTerms.isEmpty && decide (c.2.matchRatio < ratioFloor) then
      fillPartialT k requiredTerms cs results
    else
      fillPartialT k requiredTerms cs (results ++ [(c.1, c.2.recipe)])

/-- Third fill stage run on identifier-annotated candidates; the membership
test compares recipes, exactly as `recipe in results` does in the source. -/
def fillAnyT (k : Int) :
    List (String × Candidate) → List (String × Recipe) → List (String × Recipe)
  | [], results => results
  | c :: cs, results =>
    if k ≤ (results.length : Int) then results
    else if (results.map Prod.snd).contains c.2.recipe then
      fillAnyT k cs results
    else
      fillAnyT k cs (results ++ [(c.1, c.2.recipe)])

/-- `rankCandidates` instrumented with record identifiers: the same algorithm,
with every selected recipe paired with the identifier under which the
candidate-collection loop admitted it. -/
def rankCandidatesT (requiredTerms : List Str) (k : Int)
    (candidates : List (String × Candidate)) : List (String × Recipe) :=
  let sorted := List.insertionSort annLE candidates
  let strictMatches := sorted.filter (fun c => decide (strictThreshold ≤ c.2.matchRatio))
  let partialMatches := sorted.filter (fun c => decide (c.2.matchRatio < strictThreshold))
  let results1 := (pyTake k strictMatches).map (fun c => (c.1, c.2.recipe))
  let results2 :=
    if (results1.length : Int) < k then
      fillPartialT k requiredTerms partialMatches results1
    else results1
  let results3 :=
    if (results2.length : Int) < k then fillAnyT k sorted results2 else results2
  pyTake k results3

/-- `search_recipes` instrumented with record identifiers. -/
def searchRecipesTraced (query : Str) (index : FaissIndex)
    (idToRecipe : List (String × Recipe)) (category : Option Str)
    (tags : List Str) (k : Int) : List (String × Recipe) :=
  let candidates := searchCandidatesT query index idToRecipe category tags k
  if (candidates.map Prod.snd).isEmpty then []
  else rankCandidatesT (extractRequiredTerms query) k candidates

/-- Spec-side: the special phrases literally contained in the lowered query
(in `_SPECIAL_PHRASES` order). -/
def matchedPhrases (query : Str) : List Str :=
  SPECIAL_PHRASES.filter (fun ph => containsSub ph (lowerStr query))

/-- Spec-side description of the term extractor (§4.1 of the spec): the
matched phrases first, then every query token that is not purely numeric, not
a stop word, and not a constituent word of a matched phrase, in query order,
without de-duplication. -/
def specRequiredTerms (query : Str) : List Str :=
  matchedPhrases query ++
    (findRuns isTokChar (lowerStr query)).filter
      (fun t => !isDigits t && !STOP_WORDS.contains t &&
        !(matchedPhrases query).any (fun ph => (splitWords ph).contains t))

/-- Spec-side: the record satisfies a provided category filter
(case-insensitive exact match on the category field). -/
def categoryOk (category : Option Str) (r : Recipe) : Prop :=
  match category with
  | none => True
  | some c => c ≠ [] → lowerStr r.category = lowerStr c

/-- Spec-side: the record satisfies a provided tag filter (case-insensitive
non-empty intersection with the record's tags). -/
def tagsOk (tags : List Str) (r : Recipe) : Prop :=
  tags ≠ [] →
    tags.any (fun t => (r.tags.map lowerStr).contains (lowerStr t)) = true

/-- Pure descending similarity-score order (the order the
empty-required-terms fallback reduces to). -/
def scoreDescLE (a b : Candidate) : Prop := b.score ≤ a.score

instance : DecidableRel scoreDescLE := fun a b => by
  unfold scoreDescLE; infer_instance

/-- A throw-away record used in the concrete evaluations below. -/
def veganChili : Recipe :=
  { title := "Vegan Chili".toList
    description := "A hearty chili".toList
    category := "Dinner".toList
    cuisine := [], notes := [], summary := []
    ingredients := ["beans".toList, "tomato".toList]
    instructions := []
    tags := ["vegan".toList] }

/-- A throw-away record used in the concrete evaluations below. -/
def beefChili : Recipe :=
  { title := "Beef Chili".toList
    description := "A hearty chili".toList
    category := "Dinner".toList
    cuisine := [], notes := [], summary := []
    ingredients := ["beef".toList, "tomato".toList]
    instructions := []
    tags := ["meat".toList] }

/-- A two-record index fixture: position 0 is `veganChili`, position 1 is
`beefChili`, with similarity scores 9/10 and 88/100. -/
def twoRecipeIndex : FaissIndex :=
  { rowCount := 2
    searchFn := fun _ => [(mkRat 9 10, 0), (mkRat 88 100, 1)] }

/-- The record map matching `twoRecipeIndex`. -/
def twoRecipeMap : List (String × Recipe) :=
  [("a", veganChili), ("b", beefChili)]

/-- A record with every field empty. -/
def emptyRecipe : Recipe :=
  { title := [], description := [], category := [], cuisine := [], notes := []
    summary := [], ingredients := [], instructions := [], tags := [] }

/-- Two distinct identifiers mapped to the same record value. -/
def dupValueMap : List (String × Recipe) :=
  [("a", emptyRecipe), ("b", emptyRecipe)]

/-- Index fixture surfacing both positions of `dupValueMap`. -/
def dupValueIndex : FaissIndex :=
  { rowCount := 2
    searchFn := fun _ => [(mkRat 9 10, 0), (mkRat 8 10, 1)] }

/-- An index whose row count (99) disagrees with the 100-entry identifier
list `idList100`. -/
def mismatchIndex : FaissIndex :=
  { rowCount := 99
    searchFn := fun _ => [(mkRat 9 10, 0)] }

/-- A 100-entry record map (identifier list length 100). -/
def idList100 : List (String × Recipe) :=
  (List.range 100).map (fun i => (toString i, emptyRecipe))

/-! ## The term extractor implements its specification -/

theorem phraseScan_foldl (q : Str) :
    ∀ (l : List Str) (a1 a2 : List Str),
      l.foldl (fun (acc : List Str × List Str) phrase =>
          if containsSub phrase q then (acc.1 ++ [phrase], acc.2 ++ splitWords phrase)
          else acc) (a1, a2) =
        (a1 ++ l.filter (fun ph => containsSub ph q),
         a2 ++ (l.filter (fun ph => containsSub ph q)).flatMap splitWords) := by
  intro l
  induction l with
  | nil => simp
  | cons ph l ih =>
    intro a1 a2
    by_cases h : containsSub ph q
    · simp only [List.foldl_cons, h, if_true, ih, List.filter_cons, List.flatMap_cons,
        List.append_assoc, List.singleton_append]
    · simp only [List.foldl_cons, h, if_false, ih, List.filter_cons, Bool.false_eq_true]

theorem tokenScan_foldl (reserved : List Str) :
    ∀ (l acc : List Str),
      l.foldl (fun acc token =>
          if isDigits token then acc
          else if STOP_WORDS.contains token then acc
          else if reserved.contains token then acc
          else acc ++ [token]) acc =
        acc ++ l.filter
          (fun t => !isDigits t && !STOP_WORDS.contains t && !reserved.contains t) := by
  intro l
  induction l with
  | nil => simp
  | cons t l ih =>
    intro acc
    by_cases h1 : isDigits t = true
    · rw [List.foldl_cons, if_pos h1, ih, List.filter_cons]
      have hp : (!isDigits t && !STOP_WORDS.contains t && !reserved.contains t) = false := by
        rw [h1]; rfl
      rw [hp, if_neg Bool.false_ne_true]
    · have h1' : isDigits t = false := by simpa using h1
      by_cases h2 : STOP_WORDS.contains t = true
      · rw [List.foldl_cons, if_neg h1, if_pos h2, ih, List.filter_cons]
        have hp : (!isDigits t && !STOP_WORDS.contains t && !reserved.contains t) = false := by
          rw [h1', h2]; rfl
        rw [hp, if_neg Bool.false_ne_true]
      · by_cases h3 : reserved.contains t = true
        · rw [List.foldl_cons, if_neg h1, if_neg h2, if_pos h3, ih, List.filter_cons]
          have h2' : STOP_WORDS.contains t = false := by simpa using h2
          have hp : (!isDigits t && !STOP_WORDS.contains t && !reserved.contains t) = false := by
            rw [h1', h2', h3]; rfl
          rw [hp, if_neg Bool.false_ne_true]
        · rw [List.foldl_cons, if_neg h1, if_neg h2, if_neg h3, ih, List.filter_cons]
          have h2' : STOP_WORDS.contains t = false := by simpa using h2
          have h3' : reserved.contains t = false := by simpa using h3
          have hp : (!isDigits t && !STOP_WORDS.contains t && !reserved.contains t) = true := by
            rw [h1', h2', h3']; rfl
          rw [hp, if_pos rfl]
          simp [List.append_assoc]

theorem contains_flatMap_splitWords (l : List Str) (t : Str) :
    ((l.flatMap splitWords).contains t) =
      l.any (fun ph => (splitWords ph).contains t) := by
  rw [Bool.eq_iff_iff]
  simp [List.mem_flatMap]

/-- C8: `_extract_required_terms` is total by construction and returns exactly
the matched special phrases (in `_SPECIAL_PHRASES` order) followed by the
remaining single tokens in query order, where a token is emitted iff it is
not purely numeric, not a stop word, and not a constituent word of a matched
phrase; no de-duplication is performed (`specRequiredTerms` keeps filter
duplicates). -/
theorem extractRequiredTerms_spec (query : Str) :
    extractRequiredTerms query = specRequiredTerms query := by
  simp only [extractRequiredTerms, specRequiredTerms, matchedPhrases]
  rw [phraseScan_foldl (lowerStr query) SPECIAL_PHRASES [] []]
  rw [tokenScan_foldl _ (findRuns isTokChar (lowerStr query)) []]
  simp only [List.nil_append]
  congr 1
  apply List.filter_congr
  intro t _
  rw [contains_flatMap_splitWords]

/-! ## Invariants of the candidate-collection loop -/

theorem lookup_mem_values :
    ∀ (m : List (String × Recipe)) (key : String) (r : Recipe),
      m.lookup key = some r → r ∈ m.map Prod.snd := by
  intro m
  induction m with
  | nil => intro key r h; simp [List.lookup] at h
  | cons a m ih =>
    intro key r h
    obtain ⟨k', v⟩ := a
    rw [List.lookup] at h
    cases hbeq : key == k' with
    | true => simp [hbeq] at h; simp [h]
    | false => simp [hbeq] at h; exact List.mem_cons_of_mem _ (ih key r h)

/-- Every collected candidate's match statistics are those the scoring code
computes from its recipe, the metadata filters accepted its recipe, and the
recipe is a value of the record map. -/
theorem collect_mem_inv (terms : List Str) (m : List (String × Recipe))
    (cat : Option Str) (tags : List Str) :
    ∀ (hits : List (ℚ × Int)) (seen : List String),
      ∀ p ∈ collectCandidates terms m cat tags hits seen,
        p.2.matchRatio = recipeMatchRatio terms p.2.recipe ∧
        p.2.matchCount = recipeMatchCount terms p.2.recipe ∧
        categorySkip cat p.2.recipe = false ∧
        tagsSkip tags p.2.recipe = false ∧
        p.2.recipe ∈ m.map Prod.snd := by
  intro hits
  induction hits with
  | nil =>
    intro seen p hp
    rw [collectCandidates] at hp
    simp at hp
  | cons hit rest ih =>
    intro seen p hp
    obtain ⟨score, idx⟩ := hit
    rw [collectCandidates] at hp
    split at hp
    · exact ih seen p hp
    · split at hp
      · exact ih seen p hp
      · rename_i recipeId _
        split at hp
        · exact ih seen p hp
        · split at hp
          · exact ih seen p hp
          · rename_i recipe hlk
            split at hp
            · exact ih seen p hp
            · split at hp
              · exact ih _ p hp
              · rename_i hcat htags
                rcases List.mem_cons.mp hp with rfl | hp
                · refine ⟨rfl, rfl, ?_, ?_, lookup_mem_values m recipeId recipe hlk⟩
                  · simpa using hcat
                  · simpa using htags
                · exact ih _ p hp

/-- The identifiers of the collected candidates avoid `seen` and are pairwise
distinct (`seen_recipe_ids` de-duplication). -/
theorem collect_fst_nodup (terms : List Str) (m : List (String × Recipe))
    (cat : Option Str) (tags : List Str) :
    ∀ (hits : List (ℚ × Int)) (seen : List String),
      (∀ id ∈ (collectCandidates terms m cat tags hits seen).map Prod.fst,
          id ∉ seen) ∧
      ((collectCandidates terms m cat tags hits seen).map Prod.fst).Nodup := by
  intro hits
  induction hits with
  | nil =>
    intro seen
    rw [collectCandidates]
    simp
  | cons hit rest ih =>
    intro seen
    obtain ⟨score, idx⟩ := hit
    rw [collectCandidates]
    split
    · exact ih seen
    · split
      · exact ih seen
      · rename_i recipeId _
        split
        · exact ih seen
        · rename_i hseen
          split
          · exact ih seen
          · rename_i recipe hlk
            split
            · exact ih seen
            · split
              · exact ih seen
              · obtain ⟨hnotin, hnd⟩ := ih (recipeId :: seen)
                have hrid : recipeId ∉ seen := fun hmem =>
                  hseen (by simpa using hmem)
                rw [List.map_cons]
                constructor
                · intro id hid
                  rcases List.mem_cons.mp hid with rfl | hid2
                  · exact hrid
                  · intro hmem
                    exact hnotin id hid2 (List.mem_cons_of_mem _ hmem)
                · refine List.nodup_cons.mpr ⟨?_, hnd⟩
                  intro hmem
                  exact hnotin recipeId hmem (List.mem_cons_self _ _)

/-! ## The tiered sort and the fill stages -/

theorem candLE_ratio_le {a b : Candidate} (h : candLE a b) :
    b.matchRatio ≤ a.matchRatio := by
  rcases h with h | ⟨h, _⟩
  · exact le_of_lt h
  · exact le_of_eq h

/-- In a list sorted by the descending key order, the candidates with
`match_ratio ≥ θ` form a prefix and those with `match_ratio < θ` form the
matching suffix. -/
theorem sorted_filter_ratio (θ : ℚ) :
    ∀ {l : List Candidate}, List.Sorted candLE l →
      l.filter (fun c => decide (θ ≤ c.matchRatio)) =
          l.takeWhile (fun c => decide (θ ≤ c.matchRatio)) ∧
        l.filter (fun c => decide (c.matchRatio < θ)) =
          l.dropWhile (fun c => decide (θ ≤ c.matchRatio)) := by
  intro l
  induction l with
  | nil => intro _; simp
  | cons a l ih =>
    intro hs
    obtain ⟨ha, hs'⟩ := List.sorted_cons.mp hs
    obtain ⟨ih1, ih2⟩ := ih hs'
    rw [List.filter_cons, List.filter_cons, List.takeWhile_cons, List.dropWhile_cons]
    by_cases hθ : θ ≤ a.matchRatio
    · rw [decide_eq_true hθ, decide_eq_false (not_lt.mpr hθ), if_pos rfl,
        if_pos rfl, if_neg Bool.false_ne_true, ih1, ih2]
      exact ⟨rfl, rfl⟩
    · have hall : ∀ b ∈ l, ¬ θ ≤ b.matchRatio := fun b hb hθb =>
        hθ (le_trans hθb (candLE_ratio_le (ha b hb)))
      rw [decide_eq_false hθ, decide_eq_true (not_le.mp hθ), if_pos rfl,
        if_neg Bool.false_ne_true, if_neg Bool.false_ne_true,
        if_neg Bool.false_ne_true]
      constructor
      · apply List.filter_eq_nil_iff.mpr
        intro b hb
        simp [hall b hb]
      · have hfs : List.filter (fun c => decide (c.matchRatio < θ)) l = l :=
          List.filter_eq_self.mpr (fun b hb => by simp [not_le.mp (hall b hb)])
        rw [hfs]

/-- Closed form of the strong-partial-match fill stage: it appends the
gate-passing candidates' recipes in order, truncated to the space left below
`k`. -/
theorem fillPartial_eq (k : Int) (terms : List Str) :
    ∀ (cs : List Candidate) (results : List Recipe),
      fillPartial k terms cs results =
        results ++
          ((cs.filter (fun c =>
              !(!terms.isEmpty && decide (c.matchRatio < ratioFloor)))).map
            Candidate.recipe).take (k.toNat - results.length) := by
  intro cs
  induction cs with
  | nil => intro results; rw [fillPartial]; simp
  | cons c cs ih =>
    intro results
    rw [fillPartial]
    by_cases hk : k ≤ (results.length : Int)
    · rw [if_pos hk]
      have h0 : k.toNat - results.length = 0 := by omega
      rw [h0]
      simp
    · rw [if_neg hk]
      have h1 : k.toNat - results.length = (k.toNat - (results.length + 1)) + 1 := by
        omega
      by_cases hskip : (!terms.isEmpty && decide (c.matchRatio < ratioFloor)) = true
      · rw [if_pos hskip, ih, List.filter_cons]
        have hp : (!(!terms.isEmpty && decide (c.matchRatio < ratioFloor))) = false := by
          rw [hskip]; rfl
        rw [hp, if_neg Bool.false_ne_true]
      · rw [if_neg hskip, ih, List.filter_cons]
        have hp : (!(!terms.isEmpty && decide (c.matchRatio < ratioFloor))) = true := by
          simp only [Bool.not_eq_true] at hskip
          rw [hskip]; rfl
        rw [hp, if_pos rfl, List.map_cons, List.length_append, List.length_singleton,
          h1, List.take_succ_cons, List.append_assoc, List.singleton_append]

/-- If every remaining candidate's recipe is already among the results, the
final fill stage is the identity. -/
theorem fillAny_skip_all (k : Int) :
    ∀ (cs : List Candidate) (results : List Recipe),
      (∀ c ∈ cs, c.recipe ∈ results) → fillAny k cs results = results := by
  intro cs
  induction cs with
  | nil => intro results _; rw [fillAny]
  | cons c cs ih =>
    intro results hall
    rw [fillAny]
    by_cases hk : k ≤ (results.length : Int)
    · rw [if_pos hk]
    · rw [if_neg hk, if_pos (by simpa using hall c (List.mem_cons_self c cs)),
        ih _ (fun d hd => hall d (List.mem_cons_of_mem _ hd))]

/-- The final fill stage, started on a proper prefix of the sorted recipes
with no duplicate recipe values, extends that prefix along the sorted order
until `k` results are reached or the candidates run out. -/
theorem fillAny_take (k : Int) :
    ∀ (suf pre : List Candidate) (m : Nat),
      (((pre ++ suf).map Candidate.recipe).Nodup) →
      pre.length ≤ m → m ≤ (pre ++ suf).length →
      fillAny k suf (((pre ++ suf).map Candidate.recipe).take m) =
        ((pre ++ suf).map Candidate.recipe).take
          (max m (min k.toNat (pre ++ suf).length)) := by
  intro suf
  induction suf with
  | nil =>
    intro pre m hnd hpre hm
    rw [fillAny]
    have hmeq : m = (pre ++ ([] : List Candidate)).length := by
      simp only [List.append_nil] at hm hpre ⊢
      omega
    congr 1
    omega
  | cons c cs ih =>
    intro pre m hnd hpre hm
    have hlenL : ((pre ++ c :: cs).map Candidate.recipe).length =
        (pre ++ c :: cs).length := List.length_map _ _
    have hlen3 : (pre ++ c :: cs).length = pre.length + 1 + cs.length := by
      simp only [List.length_append, List.length_cons]
      omega
    have hpreL : pre.length < ((pre ++ c :: cs).map Candidate.recipe).length := by
      omega
    have htklen : (((pre ++ c :: cs).map Candidate.recipe).take m).length = m := by
      rw [List.length_take]
      omega
    have hcL : ((pre ++ c :: cs).map Candidate.recipe)[pre.length] =
        c.recipe := by
      have hcpos : (pre ++ c :: cs)[pre.length] = c := by
        rw [List.getElem_append_right (Nat.le_refl _)]
        simp
      rw [List.getElem_map]
      rw [hcpos]
    rw [fillAny]
    by_cases hk : k ≤ ((((pre ++ c :: cs).map Candidate.recipe).take m).length : Int)
    · rw [if_pos hk]
      rw [htklen] at hk
      congr 1
      omega
    · rw [if_neg hk]
      rw [htklen] at hk
      rcases Nat.lt_or_ge pre.length m with hlt | hge
      · -- the head candidate's recipe is already in the prefix: skip it
        have hbound : pre.length <
            (((pre ++ c :: cs).map Candidate.recipe).take m).length := by
          omega
        have hmem : c.recipe ∈ ((pre ++ c :: cs).map Candidate.recipe).take m := by
          have hE : (((pre ++ c :: cs).map Candidate.recipe).take m)[pre.length] =
              c.recipe := by
            rw [List.getElem_take]
            exact hcL
          rw [← hE]
          exact List.getElem_mem _
        rw [if_pos (by simpa using hmem)]
        have hre : pre ++ c :: cs = (pre ++ [c]) ++ cs := by
          rw [List.append_assoc, List.singleton_append]
        rw [hre] at hnd hm ⊢
        exact ih (pre ++ [c]) m hnd
          (by simp only [List.length_append, List.length_singleton]; omega) hm
      · -- the head candidate's recipe is the next element: append it
        have hmeq : m = pre.length := by omega
        subst hmeq
        have hnotmem : c.recipe ∉
            ((pre ++ c :: cs).map Candidate.recipe).take pre.length := by
          intro hmem
          obtain ⟨j, hj1, hj2⟩ := List.mem_take_iff_getElem.mp hmem
          have hje : j = pre.length := by
            apply hnd.getElem_inj_iff.mp
            rw [hj2, hcL]
          omega
        rw [if_neg (by simpa using hnotmem)]
        have happ : ((pre ++ c :: cs).map Candidate.recipe).take pre.length ++
              [c.recipe] =
            ((pre ++ c :: cs).map Candidate.recipe).take (pre.length + 1) := by
          rw [List.take_succ, List.getElem?_eq_getElem hpreL, hcL]
          rfl
        rw [happ]
        have hre : pre ++ c :: cs = (pre ++ [c]) ++ cs := by
          rw [List.append_assoc, List.singleton_append]
        rw [hre] at hnd hm hlen3 ⊢
        have hres := ih (pre ++ [c]) (pre.length + 1) hnd
          (by simp only [List.length_append, List.length_singleton]; omega)
          (by omega)
        rw [hres]
        congr 1
        omega

theorem pyTake_of_nonneg {α : Type} (k : Int) (hk : 0 ≤ k) (l : List α) :
    pyTake k l = l.take k.toNat := by
  unfold pyTake
  rw [if_pos hk]

/-- The third fill stage started on a truncation `take m₂` of the sorted
recipes (with `m₂ ≤ k`), followed by the final `results[:k]`, always lands on
`take k` of the sorted recipes. -/
theorem stage3_take (k : Int) (hk : 1 ≤ k) (sorted : List Candidate) (m₂ : Nat)
    (hnd : (sorted.map Candidate.recipe).Nodup) (hm₂ : m₂ ≤ k.toNat) :
    (if (((sorted.map Candidate.recipe).take m₂).length : Int) < k
        then fillAny k sorted ((sorted.map Candidate.recipe).take m₂)
        else (sorted.map Candidate.recipe).take m₂).take k.toNat =
      (sorted.map Candidate.recipe).take k.toNat := by
  have hKk : ((k.toNat : Int)) = k := by omega
  have hLlen : (sorted.map Candidate.recipe).length = sorted.length :=
    List.length_map _ _
  by_cases hcond : ((((sorted.map Candidate.recipe).take m₂).length : Int) < k)
  · rw [if_pos hcond]
    rw [List.length_take] at hcond
    have heq : (sorted.map Candidate.recipe).take m₂ =
        (sorted.map Candidate.recipe).take
          (min m₂ (sorted.map Candidate.recipe).length) :=
      List.take_eq_take.mpr (by omega)
    rw [heq]
    have h3 := fillAny_take k sorted []
      (min m₂ (sorted.map Candidate.recipe).length)
    simp only [List.nil_append] at h3
    rw [h3 hnd (Nat.zero_le _) (by omega)]
    rw [List.take_take]
    apply List.take_eq_take.mpr
    omega
  · rw [if_neg hcond]
    rw [List.length_take] at hcond
    rw [List.take_take]
    apply List.take_eq_take.mpr
    omega

/-- Core structural fact: when no two collected candidates share a recipe
value, the partition plus three fill stages compute exactly the first
`min(k, n)` recipes of the sorted candidate list. -/
theorem rank_eq_take (terms : List Str) (k : Int) (candidates : List Candidate)
    (hk : 1 ≤ k)
    (hnd : ((List.insertionSort candLE candidates).map Candidate.recipe).Nodup) :
    rankCandidates terms k candidates =
      ((List.insertionSort candLE candidates).map Candidate.recipe).take k.toNat := by
  have hKk : ((k.toNat : Int)) = k := by omega
  simp only [rankCandidates]
  simp only [pyTake_of_nonneg k (by omega : (0:Int) ≤ k)]
  set sorted := List.insertionSort candLE candidates with hsorted
  have hsort : List.Sorted candLE sorted :=
    List.sorted_insertionSort candLE candidates
  obtain ⟨hstrict, hpartial⟩ := sorted_filter_ratio strictThreshold hsort
  rw [hstrict, hpartial]
  set p := (fun c : Candidate => decide (strictThreshold ≤ c.matchRatio)) with hp
  have htw : sorted.takeWhile p = sorted.take (sorted.takeWhile p).length :=
    List.prefix_iff_eq_take.mp (List.takeWhile_prefix p)
  set s := (sorted.takeWhile p).length with hs
  have hsle : s ≤ sorted.length := (List.takeWhile_prefix p).sublist.length_le
  have hdw : sorted.dropWhile p = sorted.drop s := by
    have h1 := List.takeWhile_append_dropWhile p sorted
    calc sorted.dropWhile p
        = (sorted.takeWhile p ++ sorted.dropWhile p).drop
            (sorted.takeWhile p).length := (List.drop_left _ _).symm
      _ = sorted.drop s := by rw [h1, hs]
  rw [htw, hdw]
  have hLlen : (sorted.map Candidate.recipe).length = sorted.length :=
    List.length_map _ _
  rw [List.map_take, List.map_take, List.take_take]
  rcases le_or_lt k.toNat s with hcase | hcase
  · -- enough strict matches: both fill stages are skipped
    have hmin : min k.toNat s = k.toNat := by omega
    rw [hmin]
    have hlen1 : ((sorted.map Candidate.recipe).take k.toNat).length = k.toNat := by
      rw [List.length_take]
      omega
    rw [if_neg (show ¬ ((((sorted.map Candidate.recipe).take k.toNat).length : Int) < k)
      by rw [hlen1]; omega)]
    rw [if_neg (show ¬ ((((sorted.map Candidate.recipe).take k.toNat).length : Int) < k)
      by rw [hlen1]; omega)]
    rw [List.take_take]
    apply List.take_eq_take.mpr
    omega
  · -- not enough strict matches: the fill stages extend the prefix
    have hmin : min k.toNat s = s := by omega
    rw [hmin]
    have hlen1 : ((sorted.map Candidate.recipe).take s).length = s := by
      rw [List.length_take]
      omega
    rw [if_pos (show ((((sorted.map Candidate.recipe).take s).length : Int) < k)
      by rw [hlen1]; omega)]
    rw [fillPartial_eq, hlen1]
    have hsortdrop : List.Sorted candLE (sorted.drop s) :=
      hsort.sublist (List.drop_sublist s sorted)
    by_cases hte : terms.isEmpty
    · -- no required terms: the ratio gate never fires
      have hgall : (sorted.drop s).filter
          (fun c => !(!terms.isEmpty && decide (c.matchRatio < ratioFloor))) =
            sorted.drop s :=
        List.filter_eq_self.mpr (fun b _ => by rw [hte]; rfl)
      rw [hgall, List.map_drop, ← List.take_add]
      rw [show s + (k.toNat - s) = k.toNat by omega]
      exact stage3_take k hk sorted k.toNat hnd (Nat.le_refl _)
    · -- required terms exist: the gate keeps the `ratio ≥ 0.5` prefix
      have hte' : terms.isEmpty = false := by simpa using hte
      have hgatec : ∀ b ∈ sorted.drop s,
          (fun c => !(!terms.isEmpty && decide (c.matchRatio < ratioFloor))) b =
            (fun c => decide (ratioFloor ≤ c.matchRatio)) b := by
        intro b _
        rw [hte']
        rw [Bool.eq_iff_iff]
        simp [not_lt]
      rw [List.filter_congr hgatec]
      obtain ⟨hfloor, _⟩ := sorted_filter_ratio ratioFloor hsortdrop
      rw [hfloor]
      have htw2 : (sorted.drop s).takeWhile
            (fun c => decide (ratioFloor ≤ c.matchRatio)) =
          (sorted.drop s).take
            (((sorted.drop s).takeWhile
              (fun c => decide (ratioFloor ≤ c.matchRatio))).length) :=
        List.prefix_iff_eq_take.mp (List.takeWhile_prefix _)
      rw [htw2, List.map_take, List.map_drop, List.take_take, ← List.take_add]
      exact stage3_take k hk sorted
        (s + min (k.toNat - s)
          (((sorted.drop s).takeWhile
            (fun c => decide (ratioFloor ≤ c.matchRatio))).length))
        hnd (by omega)

/-- Bridge: `search_recipes` as truncation of its sorted candidate list. -/
theorem searchRecipes_eq_take (query : Str) (index : FaissIndex)
    (m : List (String × Recipe)) (cat : Option Str) (tags : List Str)
    (k : Int) (hk : 1 ≤ k)
    (hnd : ((searchCandidates query index m cat tags k).map Candidate.recipe).Nodup) :
    searchRecipes query index m cat tags k =
      ((List.insertionSort candLE (searchCandidates query index m cat tags k)).map
        Candidate.recipe).take k.toNat := by
  unfold searchRecipes
  by_cases hemp : (searchCandidates query index m cat tags k).isEmpty
  · rw [if_pos hemp, List.isEmpty_iff.mp hemp]
    simp
  · rw [if_neg hemp]
    apply rank_eq_take _ _ _ hk
    exact ((List.perm_insertionSort candLE
      (searchCandidates query index m cat tags k)).map Candidate.recipe).nodup_iff.mpr hnd

/-- With at least `k` strict matches available, the ranking is the truncation
of the sorted strict partition alone. -/
theorem rank_eq_strict_take (terms : List Str) (k : Int)
    (candidates : List Candidate) (hk : 1 ≤ k)
    (hstrict : k.toNat ≤
      (candidates.filter (fun c => decide (strictThreshold ≤ c.matchRatio))).length) :
    rankCandidates terms k candidates =
      (((List.insertionSort candLE candidates).filter
          (fun c => decide (strictThreshold ≤ c.matchRatio))).map
        Candidate.recipe).take k.toNat := by
  have hKk : ((k.toNat : Int)) = k := by omega
  simp only [rankCandidates]
  simp only [pyTake_of_nonneg k (by omega : (0:Int) ≤ k)]
  set sorted := List.insertionSort candLE candidates with hsorted
  have hsort : List.Sorted candLE sorted :=
    List.sorted_insertionSort candLE candidates
  obtain ⟨hstrictf, hpartial⟩ := sorted_filter_ratio strictThreshold hsort
  rw [hstrictf, hpartial]
  set p := (fun c : Candidate => decide (strictThreshold ≤ c.matchRatio)) with hp
  have hflen : (sorted.filter p).length = (candidates.filter p).length :=
    ((List.perm_insertionSort candLE candidates).filter p).length_eq
  have htw : sorted.takeWhile p = sorted.take (sorted.takeWhile p).length :=
    List.prefix_iff_eq_take.mp (List.takeWhile_prefix p)
  set s := (sorted.takeWhile p).length with hs
  have hsK : k.toNat ≤ s := by
    have : (sorted.filter p).length = s := by rw [hstrictf, hs]
    omega
  have hsle : s ≤ sorted.length := (List.takeWhile_prefix p).sublist.length_le
  have hLlen : (sorted.map Candidate.recipe).length = sorted.length :=
    List.length_map _ _
  rw [htw]
  rw [List.map_take, List.map_take, List.take_take]
  have hmin : min k.toNat s = k.toNat := by omega
  rw [hmin]
  have hlen1 : ((sorted.map Candidate.recipe).take k.toNat).length = k.toNat := by
    rw [List.length_take]
    omega
  rw [if_neg (show ¬ ((((sorted.map Candidate.recipe).take k.toNat).length : Int) < k)
    by rw [hlen1]; omega)]
  rw [if_neg (show ¬ ((((sorted.map Candidate.recipe).take k.toNat).length : Int) < k)
    by rw [hlen1]; omega)]
  rw [List.take_take]
  apply List.take_eq_take.mpr
  omega

/-- Elements of the second fill stage's output come from the prior results or
from the processed candidates. -/
theorem fillPartial_mem (k : Int) (terms : List Str) :
    ∀ (cs : List Candidate) (res : List Recipe), ∀ x ∈ fillPartial k terms cs res,
      x ∈ res ∨ ∃ c ∈ cs, x = c.recipe := by
  intro cs
  induction cs with
  | nil =>
    intro res x hx
    rw [fillPartial] at hx
    exact Or.inl hx
  | cons c cs ih =>
    intro res x hx
    rw [fillPartial] at hx
    split at hx
    · exact Or.inl hx
    · split at hx
      · rcases ih res x hx with h | ⟨d, hd, he⟩
        · exact Or.inl h
        · exact Or.inr ⟨d, List.mem_cons_of_mem _ hd, he⟩
      · rcases ih (res ++ [c.recipe]) x hx with h | ⟨d, hd, he⟩
        · rcases List.mem_append.mp h with h | h
          · exact Or.inl h
          · exact Or.inr ⟨c, List.mem_cons_self _ _, by simpa using h⟩
        · exact Or.inr ⟨d, List.mem_cons_of_mem _ hd, he⟩

/-- Elements of the final fill stage's output come from the prior results or
from the processed candidates. -/
theorem fillAny_mem (k : Int) :
    ∀ (cs : List Candidate) (res : List Recipe), ∀ x ∈ fillAny k cs res,
      x ∈ res ∨ ∃ c ∈ cs, x = c.recipe := by
  intro cs
  induction cs with
  | nil =>
    intro res x hx
    rw [fillAny] at hx
    exact Or.inl hx
  | cons c cs ih =>
    intro res x hx
    rw [fillAny] at hx
    split at hx
    · exact Or.inl hx
    · split at hx
      · rcases ih res x hx with h | ⟨d, hd, he⟩
        · exact Or.inl h
        · exact Or.inr ⟨d, List.mem_cons_of_mem _ hd, he⟩
      · rcases ih (res ++ [c.recipe]) x hx with h | ⟨d, hd, he⟩
        · rcases List.mem_append.mp h with h | h
          · exact Or.inl h
          · exact Or.inr ⟨c, List.mem_cons_self _ _, by simpa using h⟩
        · exact Or.inr ⟨d, List.mem_cons_of_mem _ hd, he⟩

theorem mem_ite_list {α : Type} {c : Prop} [Decidable c] {x : α} {a b : List α}
    (h : x ∈ (if c then a else b)) : x ∈ a ∨ x ∈ b := by
  split at h
  · exact Or.inl h
  · exact Or.inr h

theorem pyTake_subset {α : Type} (k : Int) (l : List α) : ∀ x ∈ pyTake k l, x ∈ l := by
  intro x hx
  unfold pyTake at hx
  split at hx
  · exact List.take_subset _ _ hx
  · exact List.take_subset _ _ hx

/-- Every ranked recipe is the recipe of some collected candidate. -/
theorem rank_subset (terms : List Str) (k : Int) (candidates : List Candidate) :
    ∀ r ∈ rankCandidates terms k candidates,
      r ∈ candidates.map Candidate.recipe := by
  intro r hr
  simp only [rankCandidates] at hr
  have hsortmem : ∀ x ∈ (List.insertionSort candLE candidates).map Candidate.recipe,
      x ∈ candidates.map Candidate.recipe := fun x hx =>
    (((List.perm_insertionSort candLE candidates).map Candidate.recipe).mem_iff).mp hx
  have hr3 := pyTake_subset k _ r hr
  have h1mem : ∀ x ∈ (pyTake k ((List.insertionSort candLE candidates).filter
        (fun c => decide (strictThreshold ≤ c.matchRatio)))).map Candidate.recipe,
      x ∈ candidates.map Candidate.recipe := by
    intro x hx
    obtain ⟨c, hc, rfl⟩ := List.mem_map.mp hx
    have hc2 := pyTake_subset k _ c hc
    have hc3 := List.mem_of_mem_filter hc2
    exact hsortmem _ (List.mem_map_of_mem Candidate.recipe hc3)
  rcases mem_ite_list hr3 with h3 | h3
  · rcases fillAny_mem k _ _ r h3 with h | ⟨c, hc, rfl⟩
    · rcases mem_ite_list h with h2 | h2
      · rcases fillPartial_mem k terms _ _ r h2 with h1 | ⟨c, hc, rfl⟩
        · exact h1mem r h1
        · exact hsortmem _ (List.mem_map_of_mem Candidate.recipe
            (List.mem_of_mem_filter hc))
      · exact h1mem r h2
    · exact hsortmem _ (List.mem_map_of_mem Candidate.recipe hc)
  · rcases mem_ite_list h3 with h2 | h2
    · rcases fillPartial_mem k terms _ _ r h2 with h1 | ⟨c, hc, rfl⟩
      · exact h1mem r h1
      · exact hsortmem _ (List.mem_map_of_mem Candidate.recipe
          (List.mem_of_mem_filter hc))
    · exact h1mem r h2

/-! ## Character-level facts about normalization and tokenization -/

theorem findRunsAux_forall {p : Char → Bool} {P : Char → Prop} :
    ∀ (s acc : List Char), (∀ c ∈ acc, P c) → (∀ c ∈ s, p c = true → P c) →
      ∀ t ∈ findRunsAux p acc s, ∀ c ∈ t, P c := by
  intro s
  induction s with
  | nil =>
    intro acc hacc _ t ht c hc
    rw [findRunsAux] at ht
    by_cases h : acc.isEmpty
    · simp [h] at ht
    · simp [h] at ht
      subst ht
      exact hacc c (by simpa using hc)
  | cons d ds ih =>
    intro acc hacc hs t ht c hc
    rw [findRunsAux] at ht
    by_cases hd : p d
    · rw [if_pos hd] at ht
      refine ih (d :: acc) ?_ (fun e he hp => hs e (List.mem_cons_of_mem _ he) hp) t ht c hc
      intro e he
      rcases List.mem_cons.mp he with rfl | he
      · exact hs e (by simp) hd
      · exact hacc e he
    · rw [if_neg hd] at ht
      by_cases ha : acc.isEmpty
      · rw [if_pos ha] at ht
        exact ih [] (by simp) (fun e he hp => hs e (List.mem_cons_of_mem _ he) hp)
          t ht c hc
      · rw [if_neg ha] at ht
        rcases List.mem_cons.mp ht with rfl | ht
        · exact hacc c (by simpa using hc)
        · exact ih [] (by simp) (fun e he hp => hs e (List.mem_cons_of_mem _ he) hp)
            t ht c hc

/-- Every character of every `findRuns` token satisfies the class predicate
and occurs in the source text. -/
theorem findRuns_chars {p : Char → Bool} {s : List Char} :
    ∀ t ∈ findRuns p s, ∀ c ∈ t, p c = true ∧ c ∈ s := by
  exact findRunsAux_forall (P := fun c => p c = true ∧ c ∈ s) s []
    (by simp) (fun c hc hp => ⟨hp, hc⟩)

/-- Every character `replaceRuns` emits is either the replacement character or
a source character failing the replaced class. -/
theorem replaceRunsAux_chars {p : Char → Bool} {r : Char} :
    ∀ (s : List Char) (b : Bool), ∀ c ∈ replaceRunsAux p r b s,
      c = r ∨ (p c = false ∧ c ∈ s) := by
  intro s
  induction s with
  | nil => intro b c hc; rw [replaceRunsAux] at hc; simp at hc
  | cons d ds ih =>
    intro b c hc
    rw [replaceRunsAux] at hc
    by_cases hd : p d
    · rw [if_pos hd] at hc
      cases b with
      | true =>
        rcases ih true c (by simpa using hc) with h | ⟨h1, h2⟩
        · exact Or.inl h
        · exact Or.inr ⟨h1, List.mem_cons_of_mem _ h2⟩
      | false =>
        simp only [Bool.false_eq_true, if_false] at hc
        rcases List.mem_cons.mp hc with rfl | hc
        · exact Or.inl rfl
        · rcases ih true c hc with h | ⟨h1, h2⟩
          · exact Or.inl h
          · exact Or.inr ⟨h1, List.mem_cons_of_mem _ h2⟩
    · rw [if_neg hd] at hc
      rcases List.mem_cons.mp hc with rfl | hc
      · exact Or.inr ⟨by simpa using hd, by simp⟩
      · rcases ih false c hc with h | ⟨h1, h2⟩
        · exact Or.inl h
        · exact Or.inr ⟨h1, List.mem_cons_of_mem _ h2⟩

/-- `stripSpaces` only removes characters. -/
theorem mem_of_mem_stripSpaces {c : Char} {s : List Char}
    (hc : c ∈ stripSpaces s) : c ∈ s := by
  unfold stripSpaces at hc
  rw [List.mem_reverse] at hc
  have h1 := (List.dropWhile_sublist (l := (s.dropWhile (· == ' ')).reverse)
    (· == ' ')).subset hc
  rw [List.mem_reverse] at h1
  exact (List.dropWhile_sublist (l := s) (· == ' ')).subset h1

/-- After `_normalize_text`, every character is a lower-case alphanumeric or a
space. -/
theorem normalizeText_chars {text : Str} :
    ∀ c ∈ normalizeText text, isAlnumLower c = true ∨ c = ' ' := by
  intro c hc
  unfold normalizeText at hc
  have h1 := mem_of_mem_stripSpaces hc
  rcases replaceRunsAux_chars (p := fun c => !isAlnumLower c) (r := ' ')
      (lowerStr text) false c h1 with h | ⟨h2, _⟩
  · exact Or.inr h
  · exact Or.inl (by simpa using h2)

/-- Tokens drawn from normalized record text never contain an apostrophe
(character 39): normalization has already replaced every apostrophe by a
space. -/
theorem apostrophe_not_mem_recipeToken {text : Str} {t : Str}
    (ht : t ∈ findRuns isTokChar (normalizeText text)) :
    Char.ofNat 39 ∉ t := by
  intro hmem
  have h := (findRuns_chars t ht (Char.ofNat 39) hmem).2
  rcases normalizeText_chars _ h with h1 | h1
  · exact absurd h1 (by decide)
  · exact absurd h1 (by decide)

/-- C10: a single-word required term containing an apostrophe (query
tokenization keeps apostrophes inside tokens) can never be a member of the
token set of any normalized record text (normalization replaces every
non-alphanumeric character, apostrophes included, by a space), so its
per-term test fails and it contributes 0 to `match_count` for every record.
`text` ranges over all record texts (`_recipe_text` output included). -/
theorem apostrophe_term_contributes_zero (term : Str) (rest : List Str)
    (text : Str) (h1 : Char.ofNat 39 ∈ term) (h2 : ' ' ∉ term) :
    termMatches term (normalizeText text)
        (findRuns isTokChar (normalizeText text)) = false ∧
    countTermMatches (term :: rest) (normalizeText text)
        (findRuns isTokChar (normalizeText text)) =
      countTermMatches rest (normalizeText text)
        (findRuns isTokChar (normalizeText text)) := by
  have hcontains : term.contains ' ' = false := by simp [h2]
  have hnm : term ∉ findRuns isTokChar (normalizeText text) := fun h =>
    apostrophe_not_mem_recipeToken h h1
  have hm : termMatches term (normalizeText text)
      (findRuns isTokChar (normalizeText text)) = false := by
    simp [termMatches, hcontains, hnm, h2]
  refine ⟨hm, ?_⟩
  simp [countTermMatches, List.foldl_cons, hm]

/-- Witness for C10 at the term "don't" and a concrete record text. -/
theorem apostrophe_term_contributes_zero_checked :
    termMatches "don't".toList (normalizeText "Don't overcook the pasta".toList)
        (findRuns isTokChar (normalizeText "Don't overcook the pasta".toList)) = false ∧
    countTermMatches ["don't".toList] (normalizeText "Don't overcook the pasta".toList)
        (findRuns isTokChar (normalizeText "Don't overcook the pasta".toList)) =
      countTermMatches [] (normalizeText "Don't overcook the pasta".toList)
        (findRuns isTokChar (normalizeText "Don't overcook the pasta".toList)) :=
  apostrophe_term_contributes_zero "don't".toList [] "Don't overcook the pasta".toList
    (by decide) (by decide)

/-! ## Claim theorems: ranking behaviour -/

theorem categoryOk_of_not_skip {cat : Option Str} {r : Recipe}
    (h : categorySkip cat r = false) : categoryOk cat r := by
  cases cat with
  | none => trivial
  | some c =>
    intro hc
    unfold categorySkip at h
    have hcne : c.isEmpty = false := by
      have h2 : ¬ c.isEmpty = true := fun h2 => hc (List.isEmpty_iff.mp h2)
      simpa using h2
    simp only [categorySkip] at h
    rw [hcne] at h
    simpa using h

theorem tagsOk_of_not_skip {tags : List Str} {r : Recipe}
    (h : tagsSkip tags r = false) : tagsOk tags r := by
  intro ht
  unfold tagsSkip at h
  have htne : tags.isEmpty = false := by
    have h2 : ¬ tags.isEmpty = true := fun h2 => ht (List.isEmpty_iff.mp h2)
    simpa using h2
  rw [htne] at h
  simpa using h

/-- C1: strict-match priority.  Whenever at least `k ≥ 1` of the collected
candidates reach `match_ratio ≥ 0.999`, every record `search_recipes` returns
has `match_ratio ≥ 0.999` (the ratio being the one the scoring code computes
for that record from the query's required terms). -/
theorem strict_match_priority (query : Str) (index : FaissIndex)
    (m : List (String × Recipe)) (cat : Option Str) (tags : List Str) (k : Int)
    (hk : 1 ≤ k)
    (hstrict : k ≤ (((searchCandidates query index m cat tags k).filter
      (fun c => decide (strictThreshold ≤ c.matchRatio))).length : Int)) :
    ∀ r ∈ searchRecipes query index m cat tags k,
      strictThreshold ≤ recipeMatchRatio (extractRequiredTerms query) r := by
  intro r hr
  have hne : ¬ ((searchCandidates query index m cat tags k).isEmpty = true) := by
    intro h
    rw [List.isEmpty_iff.mp h] at hstrict
    simp at hstrict
    omega
  simp only [searchRecipes] at hr
  rw [if_neg hne] at hr
  rw [rank_eq_strict_take (extractRequiredTerms query) k _ hk (by omega)] at hr
  have hr2 := List.take_subset _ _ hr
  obtain ⟨c, hc, rfl⟩ := List.mem_map.mp hr2
  obtain ⟨hcs, hcp⟩ := List.mem_filter.mp hc
  have hcm : c ∈ searchCandidates query index m cat tags k :=
    (List.mem_insertionSort candLE).mp hcs
  simp only [searchCandidates, searchCandidatesT] at hcm
  obtain ⟨q, hq, rfl⟩ := List.mem_map.mp hcm
  have hinv := collect_mem_inv (extractRequiredTerms query) m cat tags _ [] q hq
  rw [← hinv.1]
  exact of_decide_eq_true hcp

/-- Witness for C1 on the two-record fixture with k = 1. -/
theorem strict_match_priority_checked :
    strictThreshold ≤
      recipeMatchRatio (extractRequiredTerms "vegan chili".toList) veganChili :=
  strict_match_priority "vegan chili".toList twoRecipeIndex twoRecipeMap none [] 1
    (by decide) (by decide) veganChili (by decide)

/-- C2 (amended): `search_recipes` performs no validation of `k`.  At `k = 0`
it silently returns the empty list for every input — no `InvalidArgumentError`
is raised (no such error class exists in the code; the embedding is a total
function). -/
theorem searchRecipes_k_zero_empty (query : Str) (index : FaissIndex)
    (m : List (String × Recipe)) (cat : Option Str) (tags : List Str) :
    searchRecipes query index m cat tags 0 = [] := by
  simp only [searchRecipes]
  by_cases hemp : ((searchCandidates query index m cat tags 0).isEmpty = true)
  · rw [if_pos hemp]
  · rw [if_neg hemp]
    simp only [rankCandidates, pyTake_of_nonneg 0 (le_refl (0:Int)),
      Int.toNat_zero, List.take_zero]

/-- C2 (counterexample to the claim as stated): with a non-empty candidate
pool and k = 0 the call returns `[]` silently instead of failing. -/
theorem invalid_k_not_rejected :
    searchRecipes "vegan chili".toList twoRecipeIndex twoRecipeMap none [] 0 = [] ∧
    (searchCandidates "vegan chili".toList twoRecipeIndex twoRecipeMap none [] 0).length
      = 2 :=
  ⟨by decide, by decide⟩

/-- C3 (counterexample to the claim as stated): `load_faiss_index` returns the
index without any length-equality check — with identifier-list length 100 and
row count 99 the load succeeds and a search is served. -/
theorem load_without_size_check :
    loadFaissIndex (some mismatchIndex) = some mismatchIndex ∧
    idList100.length = 100 ∧
    mismatchIndex.rowCount = 99 ∧
    searchRecipes [] mismatchIndex idList100 none [] 5 = [emptyRecipe] :=
  ⟨rfl, by decide, rfl, by decide⟩

/-- C3 (amended): there is no load-time guard; the protection actually in the
code is per-search — whatever positions the index returns, every served record
is a value of the record map (sentinel and out-of-range positions are skipped
hit by hit). -/
theorem searchRecipes_serves_only_map_values (query : Str) (index : FaissIndex)
    (m : List (String × Recipe)) (cat : Option Str) (tags : List Str) (k : Int) :
    ∀ r ∈ searchRecipes query index m cat tags k, r ∈ m.map Prod.snd := by
  intro r hr
  simp only [searchRecipes] at hr
  rcases mem_ite_list hr with h | h
  · simp at h
  · have h2 := rank_subset _ _ _ r h
    simp only [searchCandidates, searchCandidatesT] at h2
    obtain ⟨c, hc, rfl⟩ := List.mem_map.mp h2
    obtain ⟨q, hq, rfl⟩ := List.mem_map.mp hc
    exact (collect_mem_inv (extractRequiredTerms query) m cat tags _ [] q hq).2.2.2.2

/-- Witness for the amended C3 on the two-record fixture. -/
theorem searchRecipes_serves_only_map_values_checked :
    veganChili ∈ twoRecipeMap.map Prod.snd :=
  searchRecipes_serves_only_map_values "vegan chili".toList twoRecipeIndex
    twoRecipeMap none [] 1 veganChili (by decide)

/-- C4 (amended): for `k ≥ 1` the result length equals
`min(k, number of collected candidates)` provided the candidates' record
values are pairwise distinct (the third fill stage de-duplicates by record
value, so equal-valued records under distinct identifiers can shorten the
result; see the counterexample). -/
theorem searchRecipes_length_eq (query : Str) (index : FaissIndex)
    (m : List (String × Recipe)) (cat : Option Str) (tags : List Str)
    (k : Int) (hk : 1 ≤ k)
    (hnd : ((searchCandidates query index m cat tags k).map Candidate.recipe).Nodup) :
    (searchRecipes query index m cat tags k).length =
      min k.toNat (searchCandidates query index m cat tags k).length := by
  rw [searchRecipes_eq_take query index m cat tags k hk hnd]
  rw [List.length_take, List.length_map,
    (List.perm_insertionSort candLE _).length_eq]

/-- Witness for the amended C4 on the two-record fixture with k = 1. -/
theorem searchRecipes_length_eq_checked :
    (searchRecipes "vegan chili".toList twoRecipeIndex twoRecipeMap none [] 1).length =
      min (1:Int).toNat
        (searchCandidates "vegan chili".toList twoRecipeIndex twoRecipeMap none [] 1).length :=
  searchRecipes_length_eq "vegan chili".toList twoRecipeIndex twoRecipeMap none [] 1
    (by decide) (by decide)

/-- C4 (counterexample to the claim as stated): two records with distinct
identifiers but equal values, both passing the (absent) filters, k = 2 — the
result has length 1, not `min(2, 2) = 2`, because the third fill stage skips
the second record by value equality. -/
theorem length_bound_counterexample :
    ¬ ((searchRecipes "zucchini".toList dupValueIndex dupValueMap none [] 2).length =
      min (2:Int).toNat
        (searchCandidates "zucchini".toList dupValueIndex dupValueMap none [] 2).length) := by
  decide

/-- C6: filter correctness — every record `search_recipes` returns satisfies a
provided non-empty category filter (case-insensitive exact match) and a
provided non-empty tag filter (case-insensitive non-empty intersection). -/
theorem filter_correctness (query : Str) (index : FaissIndex)
    (m : List (String × Recipe)) (cat : Option Str) (tags : List Str) (k : Int) :
    ∀ r ∈ searchRecipes query index m cat tags k,
      categoryOk cat r ∧ tagsOk tags r := by
  intro r hr
  simp only [searchRecipes] at hr
  rcases mem_ite_list hr with h | h
  · simp at h
  · have h2 := rank_subset _ _ _ r h
    simp only [searchCandidates, searchCandidatesT] at h2
    obtain ⟨c, hc, rfl⟩ := List.mem_map.mp h2
    obtain ⟨q, hq, rfl⟩ := List.mem_map.mp hc
    have hinv := collect_mem_inv (extractRequiredTerms query) m cat tags _ [] q hq
    exact ⟨categoryOk_of_not_skip hinv.2.2.1, tagsOk_of_not_skip hinv.2.2.2.1⟩

/-- Witness for C6 with a category filter and a tag filter supplied. -/
theorem filter_correctness_checked :
    categoryOk (some "dinner".toList) veganChili ∧ tagsOk ["Vegan".toList] veganChili :=
  filter_correctness "vegan chili".toList twoRecipeIndex twoRecipeMap
    (some "dinner".toList) ["Vegan".toList] 2 veganChili (by decide)

/-- C9: the three fill stages are equivalent to plain truncation — with
pairwise-distinct candidate record values and `k ≥ 1`, the result is exactly
the first `min(k, n)` records of the candidate list sorted descending by
(match_ratio, match_count, similarity score). -/
theorem fill_stages_equiv_truncation (query : Str) (index : FaissIndex)
    (m : List (String × Recipe)) (cat : Option Str) (tags : List Str)
    (k : Int) (hk : 1 ≤ k)
    (hnd : ((searchCandidates query index m cat tags k).map Candidate.recipe).Nodup) :
    searchRecipes query index m cat tags k =
      ((List.insertionSort candLE (searchCandidates query index m cat tags k)).map
        Candidate.recipe).take k.toNat :=
  searchRecipes_eq_take query index m cat tags k hk hnd

/-- Witness for C9 on the two-record fixture with k = 3. -/
theorem fill_stages_equiv_truncation_checked :
    searchRecipes "vegan chili".toList twoRecipeIndex twoRecipeMap none [] 3 =
      ((List.insertionSort candLE
        (searchCandidates "vegan chili".toList twoRecipeIndex twoRecipeMap none [] 3)).map
          Candidate.recipe).take (3:Int).toNat :=
  fill_stages_equiv_truncation "vegan chili".toList twoRecipeIndex twoRecipeMap none [] 3
    (by decide) (by decide)

/-! ## Claim theorems: the empty-required-terms fallback -/

theorem orderedInsert_congr {α : Type} {r s : α → α → Prop}
    [DecidableRel r] [DecidableRel s] (a : α) :
    ∀ (l : List α), (∀ b ∈ l, (r a b ↔ s a b)) →
      List.orderedInsert r a l = List.orderedInsert s a l := by
  intro l
  induction l with
  | nil => intro _; rfl
  | cons b l ih =>
    intro h
    rw [List.orderedInsert, List.orderedInsert]
    by_cases hrb : r a b
    · rw [if_pos hrb, if_pos ((h b (List.mem_cons_self b l)).mp hrb)]
    · rw [if_neg hrb,
        if_neg (fun hs2 => hrb ((h b (List.mem_cons_self b l)).mpr hs2)),
        ih (fun d hd => h d (List.mem_cons_of_mem _ hd))]

theorem insertionSort_congr {α : Type} {r s : α → α → Prop}
    [DecidableRel r] [DecidableRel s] :
    ∀ (l : List α), (∀ a ∈ l, ∀ b ∈ l, (r a b ↔ s a b)) →
      List.insertionSort r l = List.insertionSort s l := by
  intro l
  induction l with
  | nil => intro _; rfl
  | cons a l ih =>
    intro h
    rw [List.insertionSort, List.insertionSort]
    rw [ih (fun x hx y hy =>
      h x (List.mem_cons_of_mem _ hx) y (List.mem_cons_of_mem _ hy))]
    apply orderedInsert_congr
    intro b hb
    exact h a (List.mem_cons_self a l) b
      (List.mem_cons_of_mem _ ((List.mem_insertionSort s).mp hb))

/-- With no required terms every candidate carries ratio 1 and count 0, so the
tiered sort degenerates to pure descending similarity and the fill stages are
inert: ranking is plain truncation of the score-sorted list. -/
theorem rank_pure_similarity (k : Int) (candidates : List Candidate) (hk : 1 ≤ k)
    (hall : ∀ c ∈ candidates, c.matchRatio = 1 ∧ c.matchCount = 0) :
    rankCandidates [] k candidates =
      ((List.insertionSort scoreDescLE candidates).map Candidate.recipe).take
        k.toNat := by
  have hKk : ((k.toNat : Int)) = k := by omega
  have hsorteq : List.insertionSort candLE candidates =
      List.insertionSort scoreDescLE candidates := by
    apply insertionSort_congr
    intro a ha b hb
    obtain ⟨ha1, ha2⟩ := hall a ha
    obtain ⟨hb1, hb2⟩ := hall b hb
    unfold candLE scoreDescLE
    rw [ha1, hb1, ha2, hb2]
    constructor
    · rintro (h | ⟨_, (h | ⟨_, h⟩)⟩)
      · exact absurd h (lt_irrefl _)
      · exact absurd h (lt_irrefl _)
      · exact h
    · intro h
      exact Or.inr ⟨rfl, Or.inr ⟨rfl, h⟩⟩
  simp only [rankCandidates]
  simp only [pyTake_of_nonneg k (by omega : (0:Int) ≤ k)]
  rw [hsorteq]
  set sorted := List.insertionSort scoreDescLE candidates with hsortedeq
  have hallm : ∀ c ∈ sorted, c.matchRatio = 1 :=
    fun c hc => (hall c ((List.mem_insertionSort scoreDescLE).mp hc)).1
  have hstrictall :
      sorted.filter (fun c => decide (strictThreshold ≤ c.matchRatio)) = sorted :=
    List.filter_eq_self.mpr (fun c hc => by
      rw [hallm c hc]
      decide)
  have hpartialnone :
      sorted.filter (fun c => decide (c.matchRatio < strictThreshold)) = [] := by
    apply List.filter_eq_nil_iff.mpr
    intro c hc
    rw [hallm c hc]
    decide
  rw [hstrictall, hpartialnone]
  simp only [fillPartial]
  rw [ite_self]
  rw [List.map_take]
  by_cases hcond : ((((sorted.map Candidate.recipe).take k.toNat).length : Int) < k)
  · rw [if_pos hcond]
    rw [List.length_take] at hcond
    have hlen : (sorted.map Candidate.recipe).length < k.toNat := by omega
    have htakeall : (sorted.map Candidate.recipe).take k.toNat =
        sorted.map Candidate.recipe :=
      List.take_of_length_le (by omega)
    rw [htakeall]
    rw [fillAny_skip_all k sorted _
      (fun c hc => List.mem_map_of_mem Candidate.recipe hc)]
    exact htakeall
  · rw [if_neg hcond]
    rw [List.take_take]
    congr 1
    omega

/-- C7: the empty-required-terms fallback.  When the query yields no required
terms, every collected candidate receives match_ratio 1.0, and the result of
`search_recipes` is the top-k of the candidates in pure descending
similarity-score order, with no keyword gating applied. -/
theorem empty_terms_fallback (query : Str) (index : FaissIndex)
    (m : List (String × Recipe)) (cat : Option Str) (tags : List Str)
    (k : Int) (c : Candidate) (hk : 1 ≤ k)
    (hterms : extractRequiredTerms query = []) :
    (c ∈ searchCandidates query index m cat tags k → c.matchRatio = 1) ∧
    searchRecipes query index m cat tags k =
      ((List.insertionSort scoreDescLE (searchCandidates query index m cat tags k)).map
        Candidate.recipe).take k.toNat := by
  have hall : ∀ d ∈ searchCandidates query index m cat tags k,
      d.matchRatio = 1 ∧ d.matchCount = 0 := by
    intro d hd
    simp only [searchCandidates, searchCandidatesT] at hd
    obtain ⟨q, hq, rfl⟩ := List.mem_map.mp hd
    have hinv := collect_mem_inv (extractRequiredTerms query) m cat tags _ [] q hq
    constructor
    · rw [hinv.1, hterms]
      simp [recipeMatchRatio]
    · rw [hinv.2.1, hterms]
      simp [recipeMatchCount]
  refine ⟨fun hc => (hall c hc).1, ?_⟩
  simp only [searchRecipes]
  by_cases hemp : ((searchCandidates query index m cat tags k).isEmpty = true)
  · rw [if_pos hemp, List.isEmpty_iff.mp hemp]
    simp
  · rw [if_neg hemp, hterms]
    exact rank_pure_similarity k _ hk hall

/-- Witness for C7 at the purely numeric query "5". -/
theorem empty_terms_fallback_checked :
    (mkCandidate [] veganChili (mkRat 9 10) ∈
        searchCandidates "5".toList twoRecipeIndex twoRecipeMap none [] 2 →
      (mkCandidate [] veganChili (mkRat 9 10)).matchRatio = 1) ∧
    searchRecipes "5".toList twoRecipeIndex twoRecipeMap none [] 2 =
      ((List.insertionSort scoreDescLE
        (searchCandidates "5".toList twoRecipeIndex twoRecipeMap none [] 2)).map
          Candidate.recipe).take (2:Int).toNat :=
  empty_terms_fallback "5".toList twoRecipeIndex twoRecipeMap none [] 2
    (mkCandidate [] veganChili (mkRat 9 10)) (by decide) (by decide)

/-! ## Claim theorems: no duplicate identifiers (traced pipeline) -/

theorem pyTake_sublist {α : Type} (k : Int) (l : List α) :
    List.Sublist (pyTake k l) l := by
  unfold pyTake
  split
  · exact List.take_sublist _ _
  · exact List.take_sublist _ _

theorem pyTake_map {α β : Type} (k : Int) (f : α → β) (l : List α) :
    (pyTake k l).map f = pyTake k (l.map f) := by
  unfold pyTake
  split
  · exact List.map_take f l k.toNat
  · rw [List.map_take, List.length_map]

theorem map_snd_orderedInsert (p : String × Candidate) :
    ∀ (l : List (String × Candidate)),
      (List.orderedInsert annLE p l).map Prod.snd =
        List.orderedInsert candLE p.2 (l.map Prod.snd) := by
  intro l
  induction l with
  | nil => rfl
  | cons q l ih =>
    rw [List.map_cons, List.orderedInsert, List.orderedInsert]
    by_cases h : annLE p q
    · rw [if_pos h, if_pos (show candLE p.2 q.2 from h)]
      rfl
    · rw [if_neg h, if_neg (show ¬ candLE p.2 q.2 from h), List.map_cons, ih]

theorem map_snd_insertionSort :
    ∀ (l : List (String × Candidate)),
      (List.insertionSort annLE l).map Prod.snd =
        List.insertionSort candLE (l.map Prod.snd) := by
  intro l
  induction l with
  | nil => rfl
  | cons p l ih =>
    rw [List.insertionSort, List.map_cons, List.insertionSort,
      map_snd_orderedInsert, ih]

theorem map_snd_filter (p : Candidate → Bool) :
    ∀ (l : List (String × Candidate)),
      (l.filter (fun q => p q.2)).map Prod.snd = (l.map Prod.snd).filter p := by
  intro l
  induction l with
  | nil => rfl
  | cons q l ih =>
    rw [List.map_cons, List.filter_cons, List.filter_cons]
    by_cases h : p q.2
    · rw [if_pos h, if_pos h, List.map_cons, ih]
    · rw [if_neg h, if_neg h, ih]

theorem fillPartialT_map (k : Int) (terms : List Str) :
    ∀ (cs : List (String × Candidate)) (res : List (String × Recipe)),
      (fillPartialT k terms cs res).map Prod.snd =
        fillPartial k terms (cs.map Prod.snd) (res.map Prod.snd) := by
  intro cs
  induction cs with
  | nil => intro res; rfl
  | cons c cs ih =>
    intro res
    rw [List.map_cons, fillPartialT, fillPartial, List.length_map]
    by_cases h1 : k ≤ ((res.length : Int))
    · rw [if_pos h1, if_pos h1]
    · rw [if_neg h1, if_neg h1]
      by_cases h2 : (!terms.isEmpty && decide (c.2.matchRatio < ratioFloor)) = true
      · rw [if_pos h2, if_pos h2, ih]
      · rw [if_neg h2, if_neg h2, ih, List.map_append]
        rfl

theorem fillAnyT_map (k : Int) :
    ∀ (cs : List (String × Candidate)) (res : List (String × Recipe)),
      (fillAnyT k cs res).map Prod.snd =
        fillAny k (cs.map Prod.snd) (res.map Prod.snd) := by
  intro cs
  induction cs with
  | nil => intro res; rfl
  | cons c cs ih =>
    intro res
    rw [List.map_cons, fillAnyT, fillAny, List.length_map]
    by_cases h1 : k ≤ ((res.length : Int))
    · rw [if_pos h1, if_pos h1]
    · rw [if_neg h1, if_neg h1]
      by_cases h2 : ((res.map Prod.snd).contains c.2.recipe) = true
      · rw [if_pos h2, if_pos h2, ih]
      · rw [if_neg h2, if_neg h2, ih, List.map_append]
        rfl

/-- The traced ranker projects onto the plain ranker. -/
theorem rankT_map_snd (terms : List Str) (k : Int)
    (cands : List (String × Candidate)) :
    (rankCandidatesT terms k cands).map Prod.snd =
      rankCandidates terms k (cands.map Prod.snd) := by
  simp only [rankCandidatesT, rankCandidates]
  set sT := List.insertionSort annLE cands with hsT
  set s := List.insertionSort candLE (cands.map Prod.snd) with hs
  have hsmap : sT.map Prod.snd = s := map_snd_insertionSort cands
  set stT := sT.filter (fun c => decide (strictThreshold ≤ c.2.matchRatio)) with hstT
  set paT := sT.filter (fun c => decide (c.2.matchRatio < strictThreshold)) with hpaT
  set st := s.filter (fun c => decide (strictThreshold ≤ c.matchRatio)) with hst
  set pa := s.filter (fun c => decide (c.matchRatio < strictThreshold)) with hpa
  have hstmap : stT.map Prod.snd = st := by
    rw [hstT, hst, ← hsmap]
    exact map_snd_filter (fun d => decide (strictThreshold ≤ d.matchRatio)) sT
  have hpamap : paT.map Prod.snd = pa := by
    rw [hpaT, hpa, ← hsmap]
    exact map_snd_filter (fun d => decide (d.matchRatio < strictThreshold)) sT
  set r1T := (pyTake k stT).map (fun c => (c.1, c.2.recipe)) with hr1T
  set r1 := (pyTake k st).map Candidate.recipe with hr1
  have hr1map : r1T.map Prod.snd = r1 := by
    calc r1T.map Prod.snd
        = ((pyTake k stT).map Prod.snd).map Candidate.recipe := by
          rw [hr1T, List.map_map, List.map_map]
          rfl
      _ = (pyTake k (stT.map Prod.snd)).map Candidate.recipe := by
          rw [pyTake_map]
      _ = r1 := by rw [hstmap, hr1]
  have hr1len : r1T.length = r1.length := by
    rw [← hr1map]
    exact (List.length_map _ _).symm
  set r2T := (if ((r1T.length : Int) < k) then fillPartialT k terms paT r1T
    else r1T) with hr2T
  set r2 := (if ((r1.length : Int) < k) then fillPartial k terms pa r1
    else r1) with hr2
  have hr2map : r2T.map Prod.snd = r2 := by
    rw [hr2T, hr2]
    by_cases hc : ((r1T.length : Int) < k)
    · rw [if_pos hc, if_pos (by rw [← hr1len]; exact hc), fillPartialT_map,
        hpamap, hr1map]
    · rw [if_neg hc, if_neg (by rw [← hr1len]; exact hc), hr1map]
  have hr2len : r2T.length = r2.length := by
    rw [← hr2map]
    exact (List.length_map _ _).symm
  set r3T := (if ((r2T.length : Int) < k) then fillAnyT k sT r2T else r2T) with hr3T
  set r3 := (if ((r2.length : Int) < k) then fillAny k s r2 else r2) with hr3
  have hr3map : r3T.map Prod.snd = r3 := by
    rw [hr3T, hr3]
    by_cases hc : ((r2T.length : Int) < k)
    · rw [if_pos hc, if_pos (by rw [← hr2len]; exact hc), fillAnyT_map,
        hsmap, hr2map]
    · rw [if_neg hc, if_neg (by rw [← hr2len]; exact hc), hr2map]
  rw [pyTake_map, hr3map]

/-- The traced search projects onto the plain search. -/
theorem searchRecipesTraced_map_snd (query : Str) (index : FaissIndex)
    (m : List (String × Recipe)) (cat : Option Str) (tags : List Str) (k : Int) :
    (searchRecipesTraced query index m cat tags k).map Prod.snd =
      searchRecipes query index m cat tags k := by
  simp only [searchRecipesTraced, searchRecipes, searchCandidates]
  by_cases hemp :
      (((searchCandidatesT query index m cat tags k).map Prod.snd).isEmpty = true)
  · rw [if_pos hemp, if_pos hemp]
    rfl
  · rw [if_neg hemp, if_neg hemp]
    exact rankT_map_snd _ _ _

theorem nodup_keys_inj {l : List (String × Candidate)}
    (h : (l.map Prod.fst).Nodup) {p q : String × Candidate}
    (hp : p ∈ l) (hq : q ∈ l) (he : p.1 = q.1) : p = q :=
  List.inj_on_of_nodup_map h hp hq he

theorem fillPartialT_mem (k : Int) (terms : List Str) :
    ∀ (cs : List (String × Candidate)) (res : List (String × Recipe)),
      ∀ x ∈ fillPartialT k terms cs res,
        x ∈ res ∨ ∃ e ∈ cs, x = (e.1, e.2.recipe) := by
  intro cs
  induction cs with
  | nil =>
    intro res x hx
    rw [fillPartialT] at hx
    exact Or.inl hx
  | cons c cs ih =>
    intro res x hx
    rw [fillPartialT] at hx
    split at hx
    · exact Or.inl hx
    · split at hx
      · rcases ih res x hx with h | ⟨e, he, hxe⟩
        · exact Or.inl h
        · exact Or.inr ⟨e, List.mem_cons_of_mem _ he, hxe⟩
      · rcases ih _ x hx with h | ⟨e, he, hxe⟩
        · rcases List.mem_append.mp h with h | h
          · exact Or.inl h
          · exact Or.inr ⟨c, List.mem_cons_self _ _, by simpa using h⟩
        · exact Or.inr ⟨e, List.mem_cons_of_mem _ he, hxe⟩

/-- The second fill stage preserves distinctness of the result identifiers
when the incoming candidates have distinct identifiers disjoint from the
result's. -/
theorem fillPartialT_fst_nodup (k : Int) (terms : List Str) :
    ∀ (cs : List (String × Candidate)) (res : List (String × Recipe)),
      (res.map Prod.fst).Nodup → (cs.map Prod.fst).Nodup →
      (∀ id ∈ cs.map Prod.fst, id ∉ res.map Prod.fst) →
      ((fillPartialT k terms cs res).map Prod.fst).Nodup := by
  intro cs
  induction cs with
  | nil => intro res h1 _ _; rw [fillPartialT]; exact h1
  | cons c cs ih =>
    intro res h1 h2 h3
    rw [List.map_cons] at h2
    obtain ⟨hc2, hcs2⟩ := List.nodup_cons.mp h2
    rw [fillPartialT]
    split
    · exact h1
    · split
      · exact ih res h1 hcs2 (fun id hid =>
          h3 id (by rw [List.map_cons]; exact List.mem_cons_of_mem _ hid))
      · apply ih
        · rw [List.map_append]
          rw [List.nodup_append]
          refine ⟨h1, by simp, ?_⟩
          intro a ha hb
          have : a = c.1 := by simpa using hb
          subst this
          exact h3 c.1 (by rw [List.map_cons]; exact List.mem_cons_self _ _) ha

        · exact hcs2
        · intro id hid
          rw [List.map_append]
          intro hmem
          rcases List.mem_append.mp hmem with h | h
          · exact h3 id (by rw [List.map_cons]; exact List.mem_cons_of_mem _ hid) h
          · have : id = c.1 := by simpa using h
            subst this
            exact hc2 hid

/-- The final fill stage preserves distinctness of the result identifiers:
any identifier already present has its recipe present too, so the
value-membership skip also prevents identifier repetition. -/
theorem fillAnyT_fst_nodup (k : Int) :
    ∀ (cs : List (String × Candidate)) (res : List (String × Recipe)),
      (res.map Prod.fst).Nodup → (cs.map Prod.fst).Nodup →
      (∀ e ∈ cs, e.1 ∈ res.map Prod.fst → e.2.recipe ∈ res.map Prod.snd) →
      ((fillAnyT k cs res).map Prod.fst).Nodup := by
  intro cs
  induction cs with
  | nil => intro res h1 _ _; rw [fillAnyT]; exact h1
  | cons c cs ih =>
    intro res h1 h2 h3
    rw [List.map_cons] at h2
    obtain ⟨hc2, hcs2⟩ := List.nodup_cons.mp h2
    rw [fillAnyT]
    split
    · exact h1
    · split
      · exact ih res h1 hcs2 (fun e he hid =>
          h3 e (List.mem_cons_of_mem _ he) hid)
      · rename_i hlen hmem
        have hrec : c.2.recipe ∉ res.map Prod.snd := by
          intro h
          exact hmem (by simpa using h)
        apply ih
        · rw [List.map_append]
          rw [List.nodup_append]
          refine ⟨h1, by simp, ?_⟩
          intro a ha hb
          have : a = c.1 := by simpa using hb
          subst this
          exact hrec (h3 c (List.mem_cons_self _ _) ha)
        · exact hcs2
        · intro e he hid
          rw [List.map_append] at hid
          rw [List.map_append]
          rcases List.mem_append.mp hid with h | h
          · exact List.mem_append.mpr (Or.inl (h3 e (List.mem_cons_of_mem _ he) h))
          · have : e.1 = c.1 := by simpa using h
            exact absurd (this ▸ List.mem_map_of_mem Prod.fst he) hc2

/-- The traced ranker returns pairwise-distinct identifiers whenever the
collected candidates carry pairwise-distinct identifiers. -/
theorem rankT_fst_nodup (terms : List Str) (k : Int)
    (cands : List (String × Candidate))
    (hnd : (cands.map Prod.fst).Nodup) :
    ((rankCandidatesT terms k cands).map Prod.fst).Nodup := by
  simp only [rankCandidatesT]
  set sT := List.insertionSort annLE cands with hsT
  have hsortnd : (sT.map Prod.fst).Nodup :=
    ((List.perm_insertionSort annLE cands).map Prod.fst).nodup_iff.mpr hnd
  set stT := sT.filter (fun c => decide (strictThreshold ≤ c.2.matchRatio)) with hstT
  set paT := sT.filter (fun c => decide (c.2.matchRatio < strictThreshold)) with hpaT
  set r1T := (pyTake k stT).map (fun c => (c.1, c.2.recipe)) with hr1T
  have hr1fst : r1T.map Prod.fst = (pyTake k stT).map Prod.fst := by
    rw [hr1T, List.map_map]
    rfl
  have hstsub : List.Sublist (stT.map Prod.fst) (sT.map Prod.fst) := by
    rw [hstT]
    exact (List.filter_sublist sT).map Prod.fst
  have hr1nd : (r1T.map Prod.fst).Nodup := by
    rw [hr1fst]
    exact hsortnd.sublist (((pyTake_sublist k stT).map Prod.fst).trans hstsub)
  have hr1mem : ∀ x ∈ r1T, ∃ e ∈ sT, x = (e.1, e.2.recipe) := by
    intro x hx
    rw [hr1T] at hx
    obtain ⟨e, he, rfl⟩ := List.mem_map.mp hx
    exact ⟨e, List.mem_of_mem_filter ((pyTake_sublist k stT).subset he), rfl⟩
  have hdisj : ∀ id ∈ paT.map Prod.fst, id ∉ r1T.map Prod.fst := by
    intro id hidp hidr
    rw [hr1fst] at hidr
    obtain ⟨e, he, rfl⟩ := List.mem_map.mp hidp
    obtain ⟨f, hf, hfe⟩ := List.mem_map.mp hidr
    have hf2 : f ∈ stT := (pyTake_sublist k stT).subset hf
    have hef : f = e := nodup_keys_inj hsortnd
      (List.mem_of_mem_filter hf2) (List.mem_of_mem_filter he) hfe
    have h1 := of_decide_eq_true (List.mem_filter.mp hf2).2
    have h2 := of_decide_eq_true (List.mem_filter.mp he).2
    rw [hef] at h1
    exact absurd h1 (not_le.mpr h2)
  set r2T := (if ((r1T.length : Int) < k) then fillPartialT k terms paT r1T
    else r1T) with hr2T
  have hpand : (paT.map Prod.fst).Nodup := by
    apply hsortnd.sublist
    rw [hpaT]
    exact (List.filter_sublist sT).map Prod.fst
  have hr2nd : (r2T.map Prod.fst).Nodup := by
    rw [hr2T]
    split
    · exact fillPartialT_fst_nodup k terms paT r1T hr1nd hpand hdisj
    · exact hr1nd
  have hr2mem : ∀ x ∈ r2T, ∃ e ∈ sT, x = (e.1, e.2.recipe) := by
    intro x hx
    rw [hr2T] at hx
    split at hx
    · rcases fillPartialT_mem k terms paT r1T x hx with h | ⟨e, he, hxe⟩
      · exact hr1mem x h
      · exact ⟨e, List.mem_of_mem_filter he, hxe⟩
    · exact hr1mem x hx
  have hH2 : ∀ e ∈ sT, e.1 ∈ r2T.map Prod.fst → e.2.recipe ∈ r2T.map Prod.snd := by
    intro e he hid
    obtain ⟨x, hx, hxe⟩ := List.mem_map.mp hid
    obtain ⟨f, hf, rfl⟩ := hr2mem x hx
    have hfe : f = e := nodup_keys_inj hsortnd hf he (by simpa using hxe)
    have hmem : (f.1, f.2.recipe).2 ∈ r2T.map Prod.snd :=
      List.mem_map_of_mem Prod.snd hx
    rw [hfe] at hmem
    exact hmem
  apply List.Nodup.sublist ((pyTake_sublist k _).map Prod.fst)
  split
  · exact fillAnyT_fst_nodup k sT r2T hr2nd hsortnd hH2
  · exact hr2nd

/-- C5: no duplicate identifiers.  The identifier-instrumented run of the
algorithm (`searchRecipesTraced`) pairs every returned record with the
identifier under which the candidate loop admitted it; those identifiers are
pairwise distinct, and projecting the instrumentation away yields exactly
`search_recipes`' output — even when the index repeats positions, since the
collection loop de-duplicates on identifiers. -/
theorem no_duplicate_identifiers (query : Str) (index : FaissIndex)
    (m : List (String × Recipe)) (cat : Option Str) (tags : List Str) (k : Int) :
    ((searchRecipesTraced query index m cat tags k).map Prod.fst).Nodup ∧
    (searchRecipesTraced query index m cat tags k).map Prod.snd =
      searchRecipes query index m cat tags k := by
  refine ⟨?_, searchRecipesTraced_map_snd query index m cat tags k⟩
  simp only [searchRecipesTraced]
  split
  · simp
  · apply rankT_fst_nodup
    have h := collect_fst_nodup (extractRequiredTerms query) m cat tags
      (index.searchFn (max (k * 6) TOP_K)) []
    simpa [searchCandidatesT] using h.2

/-! ## Concrete evaluations (smoke tests of the embedding) -/

example : normalizeText "Don't stop; eat 2 pies!".toList = "don t stop eat 2 pies".toList := by
  decide

example : extractRequiredTerms "The Best Easy Air Fryer Chicken Recipes for 2".toList =
    ["air fryer".toList, "chicken".toList] := by decide

example : extractRequiredTerms "gluten-free snacks".toList =
    ["gluten-free".toList, "gluten".toList, "free".toList, "snacks".toList] := by decide

example : extractRequiredTerms "5".toList = [] := by decide

example : specRequiredTerms "The Best Easy Air Fryer Chicken Recipes for 2".toList =
    ["air fryer".toList, "chicken".toList] := by decide

example :
    searchRecipes "vegan chili".toList twoRecipeIndex twoRecipeMap none [] 1 =
      [veganChili] := by decide

example :
    searchRecipes "vegan chili".toList twoRecipeIndex twoRecipeMap none [] 3 =
      [veganChili, beefChili] := by decide

example :
    searchRecipes "zucchini".toList dupValueIndex dupValueMap none [] 2 =
      [emptyRecipe] := by decide
